import Mathlib

/-!
Verification of the `china-auto-dashboard` request handlers.

The repository contains two Cloudflare Pages function handlers
(`functions/api/koubei.js`, the *strict* variant, and an unnamed copy,
the *lenient* variant).  Both extract the `id` query parameter, build a
fixed URL and proxy a JSON file.

We shallowly embed the two handlers.  The JavaScript runtime pieces they
use (`JSON.parse`, `JSON.stringify`, `fetch`, `Response`) are modelled
explicitly: JSON values are a Lean inductive, `JSON.stringify` is an
executable serializer (with the optional 2-space indentation used by the
lenient variant), and `JSON.parse` is an executable recursive-descent
parser.  Numbers are modelled as exact decimals (mantissa and number of
decimal places) together with an explicit `Infinity` value produced at
the binary64 overflow threshold, since overflow is the one place where
re-serialization changes a value (`JSON.stringify(Infinity)` is
`"null"`); on finite values the exact-decimal model is conservative for
every structural-equality property proved here.
-/

set_option maxRecDepth 8000

namespace ChinaAutoDashboard

/-- A JSON value as held by the JavaScript runtime after `JSON.parse`.
`num m e` denotes the finite number `m / 10 ^ e`, kept as an exact
decimal; `inf neg` is the IEEE-754 double `Infinity` (`-Infinity` when
`neg`), which `JSON.parse` produces when a number literal's magnitude
reaches the binary64 overflow threshold `2 ^ 1024 - 2 ^ 970`.

On finite numbers the exact-decimal choice is conservative: binary64
rounding (including underflow to zero and the loss of `-0`'s sign) maps
a decimal literal and its shortest re-serialization to the *same*
double, so every structural-equality statement proved here also holds
of the rounded values; overflow is modelled explicitly because it is
the one case that changes the value's shape (`Infinity` re-serializes
as `null`). -/
inductive Json where
  | null : Json
  | bool : Bool → Json
  | num : Int → Nat → Json
  | inf : Bool → Json
  | str : String → Json
  | arr : List Json → Json
  | obj : List (String × Json) → Json

/-! ### Serialization: the model of `JSON.stringify` -/

/-- The character for a decimal digit `n < 10`. -/
def digitChar (n : Nat) : Char := Char.ofNat (48 + n)

/-- The character for a hexadecimal digit `n < 16` (lowercase, as
`JSON.stringify` emits). -/
def hexDigitChar (n : Nat) : Char :=
  if n < 10 then Char.ofNat (48 + n) else Char.ofNat (87 + n)

/-- Decimal digits of `n`, least significant first; `f` is fuel
(`f ≥ n` suffices, and the wrapper always passes enough). -/
def natDigitsAux : Nat → Nat → List Char
  | 0, _ => []
  | f + 1, n => if n < 10 then [digitChar n] else digitChar (n % 10) :: natDigitsAux f (n / 10)

/-- Decimal digits of `n`, most significant first. -/
def natToChars (n : Nat) : List Char := (natDigitsAux (n + 1) n).reverse

/-- Digit characters of the decimal number `m / 10 ^ e`, zero padded so
that a decimal point can be placed `e` digits from the right. -/
def padDigits (ds : List Char) (e : Nat) : List Char :=
  List.replicate (e + 1 - ds.length) '0' ++ ds

/-- The unsigned digit characters of the decimal number `n / 10 ^ e`:
integer part, and a fractional part of exactly `e` digits when
`e ≠ 0`. -/
def numBody (n : Nat) (e : Nat) : List Char :=
  let ds := padDigits (natToChars n) e
  if e = 0 then ds
  else ds.take (ds.length - e) ++ '.' :: ds.drop (ds.length - e)

/-- Serialization of the finite JSON number `m / 10 ^ e` (sign, then
the unsigned digits).  The model prints the full decimal expansion; the
runtime prints the shortest decimal denoting the same double (using
exponent notation at magnitudes ≥ 1e21), a byte-level difference that
no claim constrains and that re-parses to the same number value. -/
def numChars (m : Int) (e : Nat) : List Char :=
  (if m < 0 then ['-'] else []) ++ numBody m.natAbs e

/-- Does the decimal `m / 10 ^ e` overflow an IEEE-754 binary64 double?
Under round-to-nearest-ties-even, a magnitude rounds to `Infinity`
exactly when it is at least `2 ^ 1024 - 2 ^ 970` (the midpoint between
the largest finite double and `2 ^ 1024`, with the tie going to the
even `2 ^ 1024`).  This is `JSON.parse("1e999") === Infinity`. -/
def overflowsDouble (m : Int) (e : Nat) : Bool :=
  decide ((2 ^ 1024 - 2 ^ 970) * 10 ^ e ≤ m.natAbs)

/-- The number value `JSON.parse` produces from the exact decimal
`m / 10 ^ e`: `Infinity` of the literal's sign on overflow, the finite
number otherwise. -/
def mkNum (m : Int) (e : Nat) : Json :=
  if overflowsDouble m e then Json.inf (decide (m < 0)) else Json.num m e

/-- String escaping as performed by `JSON.stringify`: `"` and `\` get a
backslash escape, the five control characters with short escapes use
them, any other control character becomes `\u00XX`. -/
def escapeChar (c : Char) : List Char :=
  if c = '"' then ['\\', '"']
  else if c = '\\' then ['\\', '\\']
  else if c = Char.ofNat 8 then ['\\', 'b']
  else if c = Char.ofNat 9 then ['\\', 't']
  else if c = Char.ofNat 10 then ['\\', 'n']
  else if c = Char.ofNat 12 then ['\\', 'f']
  else if c = Char.ofNat 13 then ['\\', 'r']
  else if c.toNat < 32 then
    ['\\', 'u', '0', '0', hexDigitChar (c.toNat / 16), hexDigitChar (c.toNat % 16)]
  else [c]

/-- Escape a whole string (as a character list). -/
def escFold : List Char → List Char
  | [] => []
  | c :: cs => escapeChar c ++ escFold cs

/-- The whitespace `JSON.stringify` inserts before an element at nesting
level `lvl`: nothing in compact mode, a newline plus indentation when an
indent width is given. -/
def nlIndent (indent : Option Nat) (lvl : Nat) : List Char :=
  match indent with
  | none => []
  | some n => '\n' :: List.replicate (lvl * n) ' '

/-- The separator after `:` in an object member: empty in compact mode,
one space in indented mode. -/
def colonSep (indent : Option Nat) : List Char :=
  match indent with
  | none => []
  | some _ => [' ']

mutual

/-- `JSON.stringify` on a value, parameterized by the optional indent
width (the `space` argument) and the current nesting level.  A
non-finite number serializes as `null`, as `JSON.stringify(Infinity)`
does. -/
def emitVal (indent : Option Nat) (lvl : Nat) : Json → List Char
  | .null => "null".data
  | .bool true => "true".data
  | .bool false => "false".data
  | .num m e => numChars m e
  | .inf _ => "null".data
  | .str s => '"' :: escFold s.data ++ ['"']
  | .arr [] => ['[', ']']
  | .arr (v :: vs) =>
      '[' :: (nlIndent indent (lvl + 1) ++ emitVal indent (lvl + 1) v
        ++ emitItemsTail indent (lvl + 1) vs ++ nlIndent indent lvl ++ [']'])
  | .obj [] => ['{', '}']
  | .obj (p :: ps) =>
      '{' :: (nlIndent indent (lvl + 1) ++ emitMember indent (lvl + 1) p
        ++ emitMembersTail indent (lvl + 1) ps ++ nlIndent indent lvl ++ ['}'])

/-- The remaining elements of an array: each is preceded by a comma and
the indentation whitespace. -/
def emitItemsTail (indent : Option Nat) (lvl : Nat) : List Json → List Char
  | [] => []
  | v :: vs => ',' :: (nlIndent indent lvl ++ emitVal indent lvl v ++ emitItemsTail indent lvl vs)

/-- One object member: quoted key, colon, optional space, value. -/
def emitMember (indent : Option Nat) (lvl : Nat) : String × Json → List Char
  | (k, v) => '"' :: escFold k.data ++ '"' :: ':' :: (colonSep indent ++ emitVal indent lvl v)

/-- The remaining members of an object. -/
def emitMembersTail (indent : Option Nat) (lvl : Nat) : List (String × Json) → List Char
  | [] => []
  | p :: ps => ',' :: (nlIndent indent lvl ++ emitMember indent lvl p ++ emitMembersTail indent lvl ps)

end

/-- Model of `JSON.stringify(v)` (compact form, no `space` argument):
used by the strict variant. -/
def jsonStringify (j : Json) : String := String.mk (emitVal none 0 j)

/-- Model of `JSON.stringify(v, null, 2)` (2-space indentation): used by
the lenient variant. -/
def jsonStringify2 (j : Json) : String := String.mk (emitVal (some 2) 0 j)

/-! ### Parsing: the model of `JSON.parse` -/

/-- JSON insignificant whitespace. -/
def isWs (c : Char) : Bool :=
  c = ' ' || c = Char.ofNat 10 || c = Char.ofNat 9 || c = Char.ofNat 13

/-- Drop leading whitespace. -/
def skipWs : List Char → List Char
  | [] => []
  | c :: cs => if isWs c then skipWs cs else c :: cs

/-- Value of one hexadecimal digit character. -/
def hexVal (c : Char) : Option Nat :=
  if 48 ≤ c.toNat ∧ c.toNat ≤ 57 then some (c.toNat - 48)
  else if 97 ≤ c.toNat ∧ c.toNat ≤ 102 then some (c.toNat - 87)
  else if 65 ≤ c.toNat ∧ c.toNat ≤ 70 then some (c.toNat - 55)
  else none

/-- Value of a four-digit hexadecimal escape. -/
def hex4 (a b c d : Char) : Option Nat :=
  match hexVal a, hexVal b, hexVal c, hexVal d with
  | some x, some y, some z, some w => some (((x * 16 + y) * 16 + z) * 16 + w)
  | _, _, _, _ => none

/-- Decode a single-character escape (everything except `\u`). -/
def escDecode (e : Char) : Option Char :=
  if e = '"' then some '"'
  else if e = '\\' then some '\\'
  else if e = '/' then some '/'
  else if e = 'b' then some (Char.ofNat 8)
  else if e = 't' then some (Char.ofNat 9)
  else if e = 'n' then some (Char.ofNat 10)
  else if e = 'f' then some (Char.ofNat 12)
  else if e = 'r' then some (Char.ofNat 13)
  else none

mutual

/-- Parse the body of a JSON string after the opening quote; returns the
decoded characters and the input after the closing quote.  Unescaped
control characters are rejected, as `JSON.parse` does. -/
def parseStringBody : List Char → Option (List Char × List Char)
  | [] => none
  | c :: cs =>
      if c = '"' then some ([], cs)
      else if c = '\\' then parseEsc cs
      else if c.toNat < 32 then none
      else (parseStringBody cs).map (fun p => (c :: p.1, p.2))

/-- Parse what follows a backslash inside a JSON string. -/
def parseEsc : List Char → Option (List Char × List Char)
  | [] => none
  | e :: cs' =>
      if e = 'u' then parseU4 cs'
      else
        match escDecode e with
        | some ch => (parseStringBody cs').map (fun p => (ch :: p.1, p.2))
        | none => none

/-- Parse the four hex digits of a `\u` escape inside a JSON string. -/
def parseU4 : List Char → Option (List Char × List Char)
  | h1 :: h2 :: h3 :: h4 :: cs'' =>
      match hex4 h1 h2 h3 h4 with
      | some n => (parseStringBody cs'').map (fun p => (Char.ofNat n :: p.1, p.2))
      | none => none
  | _ => none

end

/-- Decimal value of a digit string, accumulated onto `acc`. -/
def digitsVal (acc : Nat) : List Char → Nat
  | [] => acc
  | c :: cs => digitsVal (acc * 10 + (c.toNat - 48)) cs

/-- Signed integer from a parsed magnitude. -/
def mkSign (neg : Bool) (m : Nat) : Int := if neg then -(m : Int) else (m : Int)

/-- Finish a number: optional exponent part, then normalize into the
`(mantissa, decimals)` representation. -/
def finishNum (neg : Bool) (m : Nat) (e : Nat) :
    List Char → Option ((Int × Nat) × List Char)
  | c :: t =>
      if c = 'e' ∨ c = 'E' then
        let sp : Bool × List Char :=
          match t with
          | u0 :: u =>
              if u0 = '+' then (true, u)
              else if u0 = '-' then (false, u)
              else (true, t)
          | [] => (true, t)
        let es := sp.2.takeWhile Char.isDigit
        if es.isEmpty then none
        else
          let k := digitsVal 0 es
          let me : Nat × Nat :=
            if sp.1 then (if e ≤ k then (m * 10 ^ (k - e), 0) else (m, e - k))
            else (m, e + k)
          some ((mkSign neg me.1, me.2), sp.2.dropWhile Char.isDigit)
      else some ((mkSign neg m, e), c :: t)
  | [] => some ((mkSign neg m, e), [])

/-- Does a digit string start with a superfluous leading zero?  The
JSON grammar's integer part is `0` or a nonzero digit followed by
digits, so `JSON.parse` rejects `01` with a SyntaxError. -/
def leadingZeroB : List Char → Bool
  | [] => false
  | [_] => false
  | c :: _ :: _ => decide (c = '0')

/-- Parse the unsigned part of a JSON number (integer part, optional
fraction, optional exponent) with the already-seen sign `neg`.  A
multi-digit integer part may not start with `0`. -/
def parseNumAux (neg : Bool) (cs : List Char) : Option ((Int × Nat) × List Char) :=
  let ds := cs.takeWhile Char.isDigit
  let cs2 := cs.dropWhile Char.isDigit
  if ds.isEmpty then none
  else if leadingZeroB ds then none
  else
    let iv := digitsVal 0 ds
    match cs2 with
    | [] => finishNum neg iv 0 []
    | c2 :: t2 =>
        if c2 = '.' then
          let fs := t2.takeWhile Char.isDigit
          if fs.isEmpty then none
          else finishNum neg (digitsVal iv fs) fs.length (t2.dropWhile Char.isDigit)
        else finishNum neg iv 0 (c2 :: t2)

/-- Parse a JSON number (sign, integer part, optional fraction, optional
exponent).  Returns the `(mantissa, decimals)` pair and the rest. -/
def parseNumber : List Char → Option ((Int × Nat) × List Char)
  | [] => none
  | c :: t => if c = '-' then parseNumAux true t else parseNumAux false (c :: t)

/-- Match an expected literal character sequence, returning the rest of
the input on success. -/
def expectChars : List Char → List Char → Option (List Char)
  | [], cs => some cs
  | _ :: _, [] => none
  | e :: es, c :: cs => if c = e then expectChars es cs else none

/-- Is `x` among the keys of a member list? -/
def keyMem (x : String) : List (String × Json) → Bool
  | [] => false
  | p :: ps => p.1 = x || keyMem x ps

/-- Are all keys of a member list pairwise distinct? -/
def keysUnique : List (String × Json) → Bool
  | [] => true
  | p :: ps => !(keyMem p.1 ps) && keysUnique ps

/-- Set key `k` to `v` in an object-in-construction: an existing
property keeps its position and gets the new value, a new property is
appended — JavaScript property assignment order. -/
def insertMember : List (String × Json) → String → Json → List (String × Json)
  | [], k, v => [(k, v)]
  | p :: ps, k, v => if p.1 = k then (k, v) :: ps else p :: insertMember ps k v

/-- Build the object `JSON.parse` returns from the parsed member list:
members are assigned in textual order, so a duplicated key keeps its
first position with its last value (`JSON.parse('{"a":1,"a":2}')` is
`{"a":2}`). -/
def buildObjAux (acc : List (String × Json)) : List (String × Json) → List (String × Json)
  | [] => acc
  | p :: ps => buildObjAux (insertMember acc p.1 p.2) ps

/-- The object value for a parsed member list (last duplicate wins). -/
def buildObj (ps : List (String × Json)) : List (String × Json) :=
  buildObjAux [] ps

mutual

/-- Fueled recursive-descent parser for one JSON value (leading
whitespace allowed); returns the value and the unconsumed input. -/
def parseVal : Nat → List Char → Option (Json × List Char)
  | 0, _ => none
  | f + 1, cs =>
      (skipWs cs).casesOn none (fun c cs' =>
        if c = 'n' then (expectChars ['u', 'l', 'l'] cs').map (fun r => (Json.null, r))
        else if c = 't' then (expectChars ['r', 'u', 'e'] cs').map (fun r => (Json.bool true, r))
        else if c = 'f' then
          (expectChars ['a', 'l', 's', 'e'] cs').map (fun r => (Json.bool false, r))
        else if c = '"' then
          (parseStringBody cs').map (fun p => (Json.str (String.mk p.1), p.2))
        else if c = '[' then (parseItems f cs').map (fun p => (Json.arr p.1, p.2))
        else if c = '{' then (parseMembers f cs').map (fun p => (Json.obj (buildObj p.1), p.2))
        else if c = '-' ∨ c.isDigit then
          (parseNumber (c :: cs')).map (fun p => (mkNum p.1.1 p.1.2, p.2))
        else none)

/-- Parse the elements of an array after the opening bracket. -/
def parseItems : Nat → List Char → Option (List Json × List Char)
  | 0, _ => none
  | f + 1, cs =>
      (skipWs cs).casesOn none (fun c r =>
        if c = ']' then some ([], r)
        else
          (parseVal f (c :: r)).bind (fun vr =>
            (parseItemsTail f vr.2).map (fun p => (vr.1 :: p.1, p.2))))

/-- Parse `, element` repetitions until the closing bracket. -/
def parseItemsTail : Nat → List Char → Option (List Json × List Char)
  | 0, _ => none
  | f + 1, cs =>
      (skipWs cs).casesOn none (fun c r =>
        if c = ']' then some ([], r)
        else if c = ',' then
          (parseVal f r).bind (fun vr =>
            (parseItemsTail f vr.2).map (fun p => (vr.1 :: p.1, p.2)))
        else none)

/-- Parse the members of an object after the opening brace. -/
def parseMembers : Nat → List Char → Option (List (String × Json) × List Char)
  | 0, _ => none
  | f + 1, cs =>
      (skipWs cs).casesOn none (fun c r =>
        if c = '}' then some ([], r)
        else if c = '"' then
          (parseStringBody r).bind (fun kr =>
            (skipWs kr.2).casesOn none (fun c2 r3 =>
              if c2 = ':' then
                (parseVal f r3).bind (fun vr =>
                  (parseMembersTail f vr.2).map
                    (fun p => ((String.mk kr.1, vr.1) :: p.1, p.2)))
              else none))
        else none)

/-- Parse `, member` repetitions until the closing brace. -/
def parseMembersTail : Nat → List Char → Option (List (String × Json) × List Char)
  | 0, _ => none
  | f + 1, cs =>
      (skipWs cs).casesOn none (fun c r =>
        if c = '}' then some ([], r)
        else if c = ',' then
          (skipWs r).casesOn none (fun c1 r1 =>
            if c1 = '"' then
              (parseStringBody r1).bind (fun kr =>
                (skipWs kr.2).casesOn none (fun c2 r3 =>
                  if c2 = ':' then
                    (parseVal f r3).bind (fun vr =>
                      (parseMembersTail f vr.2).map
                        (fun p => ((String.mk kr.1, vr.1) :: p.1, p.2)))
                  else none))
            else none)
        else none)

end

/-- Model of `JSON.parse`: parse one value, require only whitespace
after it.  The fuel `3 * length + 1` is ample (each fuel unit consumes
input; see `fsize_le_emit` below for the round-trip direction). -/
def jsonParse (s : String) : Option Json :=
  match parseVal (3 * s.length + 1) s.data with
  | some (j, r) => if skipWs r = [] then some j else none
  | none => none

/-! ### The runtime model: fetch responses and `Response` objects -/

/-- The upstream HTTP response observed by `fetch`. -/
structure UpstreamResp where
  status : Nat
  body : String

/-- `Response.ok`: true exactly for statuses 200–299. -/
def fetchOk (r : UpstreamResp) : Bool := decide (200 ≤ r.status) && decide (r.status ≤ 299)

/-- The response a handler returns: status, the single `Content-Type`
header both handlers set, and the body text. -/
structure HttpResponse where
  status : Nat
  contentType : String
  body : String

/-- A JavaScript exception escaping the handler (the only one possible
here is a `JSON.parse` failure from `res.json()`). -/
inductive JsError where
  | jsonParseError : JsError

/-- Result of running a handler: the settled value of the returned
promise (a response, or an uncaught exception), together with the list
of URLs fetched, in order. -/
structure HandlerTrace where
  result : Except JsError HttpResponse
  fetched : List String

/-! ### The two handlers -/

/-- The URL template shared by both variants:
`https://china-auto-dashboard.pages.dev/api/koubei_summary_<id>.json`,
with `id` interpolated verbatim. -/
def fileUrlOf (id : String) : String :=
  "https://china-auto-dashboard.pages.dev/api/koubei_summary_" ++ id ++ ".json"

namespace koubei

/-- `functions/api/koubei.js` (the strict variant).  `idParam` is the
result of `url.searchParams.get("id")` (`none` for JavaScript `null`),
and `upstream` gives the response `fetch` observes for each URL. -/
def onRequestGet (idParam : Option String) (upstream : String → UpstreamResp) : HandlerTrace :=
  let id := idParam.getD ""
  if id = "" then
    { result := Except.ok
        { status := 400
          contentType := "application/json"
          body := jsonStringify (Json.obj [("error", Json.str "missing id")]) }
      fetched := [] }
  else
    let fileUrl := fileUrlOf id
    let res := upstream fileUrl
    if fetchOk res = false then
      { result := Except.ok
          { status := 404
            contentType := "application/json"
            body := jsonStringify (Json.obj [("error", Json.str "file not found")]) }
        fetched := [fileUrl] }
    else
      match jsonParse res.body with
      | some data =>
          { result := Except.ok
              { status := 200
                contentType := "application/json"
                body := jsonStringify data }
            fetched := [fileUrl] }
      | none =>
          { result := Except.error JsError.jsonParseError
            fetched := [fileUrl] }

end koubei

namespace part000

/-- The unnamed duplicate handler (the lenient variant):
`const id = url.searchParams.get("id") || "197"`, then the same fetch
and 404 mapping, but the error message is capitalized and the success
body uses `JSON.stringify(data, null, 2)`. -/
def onRequestGet (idParam : Option String) (upstream : String → UpstreamResp) : HandlerTrace :=
  let id := if idParam.getD "" = "" then "197" else idParam.getD ""
  let fileUrl := fileUrlOf id
  let res := upstream fileUrl
  if fetchOk res = false then
    { result := Except.ok
        { status := 404
          contentType := "application/json"
          body := jsonStringify (Json.obj [("error", Json.str "File not found")]) }
      fetched := [fileUrl] }
  else
    match jsonParse res.body with
    | some data =>
        { result := Except.ok
            { status := 200
              contentType := "application/json"
              body := jsonStringify2 data }
          fetched := [fileUrl] }
    | none =>
        { result := Except.error JsError.jsonParseError
          fetched := [fileUrl] }

end part000

/-! ### Auxiliary notions used by the round-trip statements -/

/-- The head of `l`, if any, does not satisfy `p`. -/
def headNot (p : Char → Bool) : List Char → Prop
  | [] => True
  | c :: _ => p c = false

/-- A valid continuation after a serialized JSON value: end of input,
whitespace, or one of the closing tokens.  (Everything `emitVal`
actually places after a nested value.) -/
def restOkP : List Char → Prop
  | [] => True
  | c :: _ => isWs c = true ∨ c = ',' ∨ c = ']' ∨ c = '}'

mutual

/-- Fuel sufficient for `parseVal` to parse a serialization of `j`. -/
def fsize : Json → Nat
  | .null => 1
  | .bool _ => 1
  | .num _ _ => 1
  | .inf _ => 1
  | .str _ => 1
  | .arr l => 1 + fsizeItems l
  | .obj l => 1 + fsizeMembers l

/-- Fuel sufficient for the element list of an array. -/
def fsizeItems : List Json → Nat
  | [] => 1
  | v :: vs => 1 + fsize v + fsizeItems vs

/-- Fuel sufficient for the member list of an object. -/
def fsizeMembers : List (String × Json) → Nat
  | [] => 1
  | p :: ps => 1 + fsize p.2 + fsizeMembers ps

end

mutual

/-- The invariant `JSON.parse` guarantees of every value it returns:
finite numbers are below the double overflow threshold (an overflowing
literal becomes `inf` instead), and object keys are pairwise distinct
(a duplicate key was collapsed by last-wins assignment). -/
def wfVal : Json → Bool
  | .null => true
  | .bool _ => true
  | .num m e => !(overflowsDouble m e)
  | .inf _ => true
  | .str _ => true
  | .arr l => wfValItems l
  | .obj l => keysUnique l && wfValMembers l

/-- `wfVal` for every element of an array. -/
def wfValItems : List Json → Bool
  | [] => true
  | v :: vs => wfVal v && wfValItems vs

/-- `wfVal` for every member value of an object. -/
def wfValMembers : List (String × Json) → Bool
  | [] => true
  | p :: ps => wfVal p.2 && wfValMembers ps

end

mutual

/-- The value contains no `Infinity` anywhere: no number in the source
body overflowed.  This is the one extra condition (beyond what
`JSON.parse` already guarantees) under which re-serialization is
value-preserving. -/
def noInf : Json → Bool
  | .null => true
  | .bool _ => true
  | .num _ _ => true
  | .inf _ => false
  | .str _ => true
  | .arr l => noInfItems l
  | .obj l => noInfMembers l

/-- `noInf` for every element of an array. -/
def noInfItems : List Json → Bool
  | [] => true
  | v :: vs => noInf v && noInfItems vs

/-- `noInf` for every member value of an object. -/
def noInfMembers : List (String × Json) → Bool
  | [] => true
  | p :: ps => noInf p.2 && noInfMembers ps

end

mutual

/-- A value both well-formed (`wfVal`) and finite (`noInf`): the
domain on which serialization followed by parsing is the identity. -/
def finiteWf : Json → Bool
  | .null => true
  | .bool _ => true
  | .num m e => !(overflowsDouble m e)
  | .inf _ => false
  | .str _ => true
  | .arr l => finiteWfItems l
  | .obj l => keysUnique l && finiteWfMembers l

/-- `finiteWf` for every element of an array. -/
def finiteWfItems : List Json → Bool
  | [] => true
  | v :: vs => finiteWf v && finiteWfItems vs

/-- `finiteWf` for every member value of an object. -/
def finiteWfMembers : List (String × Json) → Bool
  | [] => true
  | p :: ps => finiteWf p.2 && finiteWfMembers ps

end

/-! ## Theorems

### Digit strings -/

theorem digitsVal_nil (acc : Nat) : digitsVal acc [] = acc := rfl

theorem digitsVal_cons (acc : Nat) (c : Char) (cs : List Char) :
    digitsVal acc (c :: cs) = digitsVal (acc * 10 + (c.toNat - 48)) cs := rfl

theorem digitsVal_append (l1 l2 : List Char) (acc : Nat) :
    digitsVal acc (l1 ++ l2) = digitsVal (digitsVal acc l1) l2 := by
  induction l1 generalizing acc with
  | nil => rfl
  | cons c cs ih => rw [List.cons_append, digitsVal_cons, digitsVal_cons, ih]

theorem digitChar_isDigit (n : Nat) (h : n < 10) : (digitChar n).isDigit = true := by
  interval_cases n <;> decide

theorem digitChar_toNat (n : Nat) (h : n < 10) : (digitChar n).toNat - 48 = n := by
  interval_cases n <;> decide

theorem natDigitsAux_digits :
    ∀ f n, n < f → ∀ c ∈ natDigitsAux f n, c.isDigit = true := by
  intro f
  induction f with
  | zero => intro n h; omega
  | succ f ih =>
      intro n h c hc
      rw [natDigitsAux] at hc
      by_cases h10 : n < 10
      · simp [h10] at hc
        subst hc
        exact digitChar_isDigit n h10
      · simp [h10] at hc
        rcases hc with hc | hc
        · subst hc
          exact digitChar_isDigit _ (Nat.mod_lt _ (by omega))
        · have hdiv : n / 10 < f := by
            have := Nat.div_lt_self (show 0 < n by omega) (show 1 < 10 by omega)
            omega
          exact ih (n / 10) hdiv c hc

theorem digitsVal_natDigitsAux :
    ∀ f n acc, n < f →
      digitsVal acc (natDigitsAux f n).reverse =
        acc * 10 ^ (natDigitsAux f n).length + n := by
  intro f
  induction f with
  | zero => intro n acc h; omega
  | succ f ih =>
      intro n acc h
      rw [natDigitsAux]
      by_cases h10 : n < 10
      · rw [if_pos h10]
        simp only [List.reverse_cons, List.reverse_nil, List.nil_append, digitsVal_cons,
          digitsVal_nil, List.length_singleton, pow_one]
        have := digitChar_toNat n h10
        omega
      · have hdiv : n / 10 < f := by
          have := Nat.div_lt_self (show 0 < n by omega) (show 1 < 10 by omega)
          omega
        rw [if_neg h10]
        simp only [List.reverse_cons, digitsVal_append, List.length_cons]
        rw [ih (n / 10) acc hdiv]
        simp only [digitsVal_cons, digitsVal_nil]
        have h1 := digitChar_toNat (n % 10) (Nat.mod_lt _ (by omega))
        have h2 := Nat.div_add_mod n 10
        rw [pow_succ]
        have h3 : acc * ((10 : Nat) ^ (natDigitsAux f (n / 10)).length * 10)
            = acc * (10 : Nat) ^ (natDigitsAux f (n / 10)).length * 10 := by ring
        rw [h3]
        generalize acc * (10 : Nat) ^ (natDigitsAux f (n / 10)).length = Y
        omega

theorem natToChars_digits (n : Nat) : ∀ c ∈ natToChars n, c.isDigit = true := by
  intro c hc
  rw [natToChars, List.mem_reverse] at hc
  exact natDigitsAux_digits (n + 1) n (by omega) c hc

theorem digitsVal_natToChars (n acc : Nat) :
    digitsVal acc (natToChars n) = acc * 10 ^ (natToChars n).length + n := by
  rw [natToChars, List.length_reverse]
  exact digitsVal_natDigitsAux (n + 1) n acc (by omega)

theorem natToChars_ne_nil (n : Nat) : natToChars n ≠ [] := by
  rw [natToChars]
  intro h
  rw [List.reverse_eq_nil_iff, natDigitsAux] at h
  by_cases h10 : n < 10 <;> simp [h10] at h

theorem padDigits_digits (ds : List Char) (e : Nat) (h : ∀ c ∈ ds, c.isDigit = true) :
    ∀ c ∈ padDigits ds e, c.isDigit = true := by
  intro c hc
  rw [padDigits, List.mem_append] at hc
  rcases hc with hc | hc
  · rw [List.eq_of_mem_replicate hc]
    decide
  · exact h c hc

theorem padDigits_length (ds : List Char) (e : Nat) :
    (padDigits ds e).length = max (e + 1) ds.length := by
  simp [padDigits]
  omega

theorem padDigits_ne_nil (ds : List Char) (e : Nat) : padDigits ds e ≠ [] := by
  intro h
  have hlen := congrArg List.length h
  rw [padDigits_length] at hlen
  simp only [List.length_nil] at hlen
  omega

theorem digitsVal_replicate_zero (k : Nat) (ds : List Char) :
    digitsVal 0 (List.replicate k '0' ++ ds) = digitsVal 0 ds := by
  induction k with
  | zero => rfl
  | succ k ih =>
      rw [List.replicate_succ, List.cons_append, digitsVal_cons]
      have h0 : 0 * 10 + ('0'.toNat - 48) = 0 := by decide
      rw [h0]
      exact ih

theorem digitsVal_padDigits (n e : Nat) :
    digitsVal 0 (padDigits (natToChars n) e) = n := by
  rw [padDigits, digitsVal_replicate_zero]
  simpa using digitsVal_natToChars n 0

theorem natToChars_of_lt_ten (n : Nat) (h : n < 10) : natToChars n = [digitChar n] := by
  rw [natToChars, natDigitsAux, if_pos h]
  rfl

theorem natDigitsAux_last :
    ∀ f n, n < f → 0 < n → ∃ t d, natDigitsAux f n = t ++ [d] ∧ d ≠ '0' := by
  intro f
  induction f with
  | zero => intro n h; omega
  | succ f ih =>
      intro n h h0
      rw [natDigitsAux]
      by_cases h10 : n < 10
      · rw [if_pos h10]
        refine ⟨[], digitChar n, rfl, ?_⟩
        interval_cases n <;> decide
      · rw [if_neg h10]
        have hdiv : n / 10 < f := by
          have := Nat.div_lt_self (show 0 < n by omega) (show 1 < 10 by omega)
          omega
        obtain ⟨t, d, heq, hne⟩ := ih (n / 10) hdiv (by omega)
        exact ⟨digitChar (n % 10) :: t, d, by rw [heq, List.cons_append], hne⟩

theorem natToChars_head_ne_zero (n : Nat) (h0 : 0 < n) :
    ∃ c t, natToChars n = c :: t ∧ c ≠ '0' := by
  obtain ⟨t, d, heq, hne⟩ := natDigitsAux_last (n + 1) n (by omega) h0
  refine ⟨d, t.reverse, ?_, hne⟩
  rw [natToChars, heq, List.reverse_append]
  rfl

theorem leadingZeroB_cons_ne (c : Char) (t : List Char) (h : c ≠ '0') :
    leadingZeroB (c :: t) = false := by
  cases t with
  | nil => rfl
  | cons x xs => simp [leadingZeroB, h]

theorem padDigits_of_ge (ds : List Char) (e : Nat) (h : e + 1 ≤ ds.length) :
    padDigits ds e = ds := by
  rw [padDigits]
  have h0 : e + 1 - ds.length = 0 := by omega
  rw [h0]
  rfl

theorem leadingZero_natToChars (n : Nat) : leadingZeroB (natToChars n) = false := by
  by_cases h0 : n = 0
  · subst h0
    rfl
  · obtain ⟨c, t, heq, hne⟩ := natToChars_head_ne_zero n (by omega)
    rw [heq]
    exact leadingZeroB_cons_ne c t hne

theorem leadingZero_padDigits_zero (n : Nat) :
    leadingZeroB (padDigits (natToChars n) 0) = false := by
  rw [padDigits_of_ge]
  · exact leadingZero_natToChars n
  · cases h : natToChars n with
    | nil => exact absurd h (natToChars_ne_nil n)
    | cons c t => rw [List.length_cons]; omega

theorem leadingZero_padTake (n e : Nat) (he : e ≠ 0) :
    leadingZeroB ((padDigits (natToChars n) e).take
      ((padDigits (natToChars n) e).length - e)) = false := by
  by_cases hlen : (natToChars n).length ≤ e
  · have hl : (padDigits (natToChars n) e).length = e + 1 := by
      rw [padDigits_length]
      omega
    rw [hl]
    have h1 : e + 1 - e = 1 := by omega
    rw [h1]
    obtain ⟨d, t, hdt⟩ : ∃ d t, padDigits (natToChars n) e = d :: t := by
      cases hp : padDigits (natToChars n) e with
      | nil => exact absurd hp (padDigits_ne_nil _ _)
      | cons d t => exact ⟨d, t, rfl⟩
    rw [hdt]
    rfl
  · have hge : e + 1 ≤ (natToChars n).length := by omega
    rw [padDigits_of_ge _ _ hge]
    have h10 : ¬ n < 10 := by
      intro hlt
      rw [natToChars_of_lt_ten n hlt, List.length_singleton] at hge
      omega
    obtain ⟨c, t, heq, hne⟩ := natToChars_head_ne_zero n (by omega)
    rw [heq] at hge ⊢
    obtain ⟨k, hk⟩ : ∃ k, (c :: t).length - e = k + 1 := by
      refine ⟨(c :: t).length - e - 1, ?_⟩
      rw [List.length_cons] at hge ⊢
      omega
    rw [hk, List.take_succ_cons]
    exact leadingZeroB_cons_ne c _ hne

/-! ### takeWhile / dropWhile over a clean split -/

theorem takeWhile_append_all (p : Char → Bool) :
    ∀ l1 l2, (∀ c ∈ l1, p c = true) → headNot p l2 → (l1 ++ l2).takeWhile p = l1 := by
  intro l1
  induction l1 with
  | nil =>
      intro l2 _ h2
      cases l2 with
      | nil => rfl
      | cons c t =>
          simp only [headNot] at h2
          simp [List.takeWhile_cons, h2]
  | cons c cs ih =>
      intro l2 h1 h2
      have hc : p c = true := h1 c (by simp)
      simp only [List.cons_append, List.takeWhile_cons, hc]
      simp [ih l2 (fun d hd => h1 d (by simp [hd])) h2]

theorem dropWhile_append_all (p : Char → Bool) :
    ∀ l1 l2, (∀ c ∈ l1, p c = true) → headNot p l2 → (l1 ++ l2).dropWhile p = l2 := by
  intro l1
  induction l1 with
  | nil =>
      intro l2 _ h2
      cases l2 with
      | nil => rfl
      | cons c t =>
          simp only [headNot] at h2
          simp [List.dropWhile_cons, h2]
  | cons c cs ih =>
      intro l2 h1 h2
      have hc : p c = true := h1 c (by simp)
      simp only [List.cons_append, List.dropWhile_cons, hc]
      simp [ih l2 (fun d hd => h1 d (by simp [hd])) h2]

/-! ### Character classes -/

theorem isDigit_bounds (c : Char) (h : c.isDigit = true) : 48 ≤ c.toNat ∧ c.toNat ≤ 57 := by
  simp [Char.isDigit] at h
  exact h

theorem isDigit_ne_of (c : Char) (h : c.isDigit = true) (x : Char)
    (hx : x.toNat < 48 ∨ 57 < x.toNat) : c ≠ x := by
  intro he
  obtain ⟨h1, h2⟩ := isDigit_bounds c h
  subst he
  omega

theorem not_digit_of_toNat (c : Char) (h : c.toNat < 48 ∨ 57 < c.toNat) :
    c.isDigit = false := by
  rw [Bool.eq_false_iff]
  intro hd
  obtain ⟨h1, h2⟩ := isDigit_bounds c hd
  omega

theorem ws_cases (c : Char) (h : isWs c = true) :
    c = ' ' ∨ c = Char.ofNat 10 ∨ c = Char.ofNat 9 ∨ c = Char.ofNat 13 := by
  simpa [isWs, Bool.or_eq_true, decide_eq_true_eq, or_assoc] using h

theorem isDigit_not_ws (c : Char) (h : c.isDigit = true) : isWs c = false := by
  obtain ⟨h1, h2⟩ := isDigit_bounds c h
  rw [Bool.eq_false_iff]
  intro hw
  rcases ws_cases c hw with he | he | he | he <;> subst he <;> exact absurd h1 (by decide)

theorem ws_not_digit (c : Char) (h : isWs c = true) : c.isDigit = false := by
  rcases ws_cases c h with he | he | he | he <;> subst he <;> decide

/-! ### `restOkP` consequences -/

theorem restOk_headNot_digit (l : List Char) (h : restOkP l) : headNot Char.isDigit l := by
  cases l with
  | nil => trivial
  | cons c t =>
      rw [restOkP] at h
      rw [headNot]
      rcases h with h | h | h | h
      · exact ws_not_digit c h
      · subst h; decide
      · subst h; decide
      · subst h; decide

theorem restOk_head_ne (c : Char) (t : List Char) (h : restOkP (c :: t)) :
    c ≠ '.' ∧ c ≠ 'e' ∧ c ≠ 'E' := by
  rw [restOkP] at h
  rcases h with h | h | h | h
  · rcases ws_cases c h with he | he | he | he <;> subst he <;> exact ⟨by decide, by decide, by decide⟩
  · subst h; exact ⟨by decide, by decide, by decide⟩
  · subst h; exact ⟨by decide, by decide, by decide⟩
  · subst h; exact ⟨by decide, by decide, by decide⟩

/-! ### `skipWs` -/

theorem skipWs_cons_not (c : Char) (l : List Char) (h : isWs c = false) :
    skipWs (c :: l) = c :: l := by
  rw [skipWs, h]
  rfl

theorem skipWs_append_ws (w l : List Char) (hw : ∀ c ∈ w, isWs c = true) :
    skipWs (w ++ l) = skipWs l := by
  induction w with
  | nil => rfl
  | cons c t ih =>
      rw [List.cons_append, skipWs, hw c (by simp)]
      exact ih fun d hd => hw d (by simp [hd])

theorem nlIndent_ws (indent : Option Nat) (lvl : Nat) :
    ∀ c ∈ nlIndent indent lvl, isWs c = true := by
  intro c hc
  cases indent with
  | none => simp [nlIndent] at hc
  | some n =>
      simp only [nlIndent, List.mem_cons] at hc
      rcases hc with hc | hc
      · subst hc; decide
      · rw [List.eq_of_mem_replicate hc]; decide

theorem colonSep_ws (indent : Option Nat) : ∀ c ∈ colonSep indent, isWs c = true := by
  intro c hc
  cases indent with
  | none => simp [colonSep] at hc
  | some n =>
      simp only [colonSep, List.mem_singleton] at hc
      subst hc
      decide

theorem parseVal_ws_append (f : Nat) (w cs : List Char) (hw : ∀ c ∈ w, isWs c = true) :
    parseVal f (w ++ cs) = parseVal f cs := by
  cases f with
  | zero => rfl
  | succ f => rw [parseVal, parseVal, skipWs_append_ws w cs hw]

/-! ### Round trip for numbers -/

theorem finishNum_restOk (neg : Bool) (m e : Nat) (rest : List Char) (h : restOkP rest) :
    finishNum neg m e rest = some ((mkSign neg m, e), rest) := by
  cases rest with
  | nil => rfl
  | cons c t =>
      obtain ⟨_, he, hE⟩ := restOk_head_ne c t h
      rw [finishNum.eq_def]
      dsimp only []
      rw [if_neg (by simp [he, hE])]

theorem numBody_cons (n e : Nat) :
    ∃ d t, numBody n e = d :: t ∧ d.isDigit = true := by
  have hdig : ∀ c ∈ padDigits (natToChars n) e, c.isDigit = true :=
    padDigits_digits _ _ (natToChars_digits n)
  have hlen : e + 1 ≤ (padDigits (natToChars n) e).length := by
    rw [padDigits_length]; omega
  obtain ⟨d, t, hdt⟩ : ∃ d t, padDigits (natToChars n) e = d :: t := by
    cases hp : padDigits (natToChars n) e with
    | nil => exact absurd hp (padDigits_ne_nil _ _)
    | cons d t => exact ⟨d, t, rfl⟩
  have hd : d.isDigit = true := hdig d (by rw [hdt]; simp)
  rw [numBody]
  by_cases he : e = 0
  · exact ⟨d, t, by rw [if_pos he, hdt], hd⟩
  · rw [if_neg he]
    obtain ⟨k, hk⟩ : ∃ k, (padDigits (natToChars n) e).length - e = k + 1 := by
      refine ⟨(padDigits (natToChars n) e).length - e - 1, ?_⟩
      omega
    rw [hk, hdt, List.take_succ_cons]
    exact ⟨d, _, rfl, hd⟩

theorem parseNumAux_numBody (neg : Bool) (n e : Nat) (rest : List Char) (h : restOkP rest) :
    parseNumAux neg (numBody n e ++ rest) = some ((mkSign neg n, e), rest) := by
  have hdig : ∀ c ∈ padDigits (natToChars n) e, c.isDigit = true :=
    padDigits_digits _ _ (natToChars_digits n)
  have hlen : e + 1 ≤ (padDigits (natToChars n) e).length := by
    rw [padDigits_length]; omega
  have hnd : headNot Char.isDigit rest := restOk_headNot_digit rest h
  obtain ⟨d, t, hdt⟩ : ∃ d t, padDigits (natToChars n) e = d :: t := by
    cases hp : padDigits (natToChars n) e with
    | nil => exact absurd hp (padDigits_ne_nil _ _)
    | cons d t => exact ⟨d, t, rfl⟩
  rw [numBody]
  by_cases he : e = 0
  · subst he
    rw [if_pos rfl]
    rw [parseNumAux]
    rw [takeWhile_append_all _ _ _ hdig hnd, dropWhile_append_all _ _ _ hdig hnd]
    rw [hdt]
    simp only [List.isEmpty_cons, Bool.false_eq_true, if_false]
    rw [← hdt, leadingZero_padDigits_zero]
    simp only [Bool.false_eq_true, if_false]
    rw [digitsVal_padDigits]
    cases rest with
    | nil => rw [finishNum_restOk neg n 0 [] trivial]
    | cons c2 t2 =>
        obtain ⟨hdot, _, _⟩ := restOk_head_ne c2 t2 h
        dsimp only []
        rw [if_neg hdot, finishNum_restOk neg n 0 (c2 :: t2) h]
  · rw [if_neg he]
    set P := padDigits (natToChars n) e with hP
    have htake_dig : ∀ c ∈ P.take (P.length - e), c.isDigit = true :=
      fun c hc => hdig c (List.take_subset _ _ hc)
    have hdrop_dig : ∀ c ∈ P.drop (P.length - e), c.isDigit = true :=
      fun c hc => hdig c (List.drop_subset _ _ hc)
    obtain ⟨k, hk⟩ : ∃ k, P.length - e = k + 1 := ⟨P.length - e - 1, by omega⟩
    rw [parseNumAux]
    rw [List.append_assoc, List.cons_append]
    rw [takeWhile_append_all _ _ _ htake_dig (by rw [headNot]; decide),
      dropWhile_append_all _ _ _ htake_dig (by rw [headNot]; decide)]
    have htne : (P.take (P.length - e)).isEmpty = false := by
      rw [hk, hdt, List.take_succ_cons]
      rfl
    rw [htne]
    simp only [Bool.false_eq_true, if_false]
    have hlz : leadingZeroB (P.take (P.length - e)) = false := by
      rw [hP]
      exact leadingZero_padTake n e he
    rw [hlz]
    simp only [Bool.false_eq_true, if_false]
    rw [if_pos trivial]
    rw [takeWhile_append_all _ _ _ hdrop_dig hnd, dropWhile_append_all _ _ _ hdrop_dig hnd]
    have hdne : (P.drop (P.length - e)).isEmpty = false := by
      have hq0 : (P.drop (P.length - e)).length = e := by
        rw [List.length_drop]
        omega
      cases hq : P.drop (P.length - e) with
      | nil => rw [hq] at hq0; simp at hq0; omega
      | cons q qs => rfl
    rw [hdne]
    simp only [Bool.false_eq_true, if_false]
    have hval : digitsVal (digitsVal 0 (P.take (P.length - e))) (P.drop (P.length - e)) = n := by
      rw [← digitsVal_append, List.take_append_drop, hP, digitsVal_padDigits]
    rw [hval]
    have hflen : (P.drop (P.length - e)).length = e := by
      rw [List.length_drop]
      omega
    rw [hflen]
    exact finishNum_restOk neg n e rest h

theorem parseNumber_numChars (m : Int) (e : Nat) (rest : List Char) (h : restOkP rest) :
    parseNumber (numChars m e ++ rest) = some ((m, e), rest) := by
  rw [numChars]
  by_cases hm : m < 0
  · rw [if_pos hm]
    rw [List.cons_append, List.nil_append]
    show parseNumber ('-' :: (numBody m.natAbs e ++ rest)) = some ((m, e), rest)
    have hstep : parseNumber ('-' :: (numBody m.natAbs e ++ rest))
        = parseNumAux true (numBody m.natAbs e ++ rest) := rfl
    rw [hstep]
    rw [parseNumAux_numBody true m.natAbs e rest h]
    have hms : mkSign true m.natAbs = m := by
      rw [mkSign, if_pos rfl]
      omega
    rw [hms]
  · rw [if_neg hm, List.nil_append]
    obtain ⟨d, t, hdt, hd⟩ := numBody_cons m.natAbs e
    rw [hdt, List.cons_append, parseNumber.eq_def]
    dsimp only []
    rw [if_neg (isDigit_ne_of d hd '-' (by decide)), ← List.cons_append, ← hdt]
    rw [parseNumAux_numBody false m.natAbs e rest h]
    have hms : mkSign false m.natAbs = m := by
      rw [mkSign, if_neg (Bool.false_ne_true)]
      omega
    rw [hms]

/-! ### Round trip for strings -/

theorem hexVal_hexDigitChar (n : Nat) (h : n < 16) : hexVal (hexDigitChar n) = some n := by
  interval_cases n <;> decide

theorem parseStringBody_esc (e ch : Char) (hne : e ≠ 'u') (hdec : escDecode e = some ch)
    (X : List Char) :
    parseStringBody ('\\' :: e :: X) = (parseStringBody X).map (fun p => (ch :: p.1, p.2)) := by
  rw [parseStringBody]
  rw [if_neg (by decide), if_pos rfl]
  rw [parseEsc, if_neg hne, hdec]

theorem parseStringBody_u (h1 h2 h3 h4 : Char) (n : Nat) (hv : hex4 h1 h2 h3 h4 = some n)
    (X : List Char) :
    parseStringBody ('\\' :: 'u' :: h1 :: h2 :: h3 :: h4 :: X)
      = (parseStringBody X).map (fun p => (Char.ofNat n :: p.1, p.2)) := by
  rw [parseStringBody]
  rw [if_neg (by decide), if_pos rfl]
  rw [parseEsc, if_pos rfl, parseU4, hv]

theorem parseStringBody_raw (c : Char) (h1 : c ≠ '"') (h2 : c ≠ '\\')
    (h3 : ¬ c.toNat < 32) (X : List Char) :
    parseStringBody (c :: X) = (parseStringBody X).map (fun p => (c :: p.1, p.2)) := by
  rw [parseStringBody, if_neg h1, if_neg h2, if_neg h3]

theorem hex4_encode (t : Nat) (h : t < 256) :
    hex4 '0' '0' (hexDigitChar (t / 16)) (hexDigitChar (t % 16)) = some t := by
  have e1 : hexVal '0' = some 0 := by decide
  have e3 := hexVal_hexDigitChar (t / 16) (by omega)
  have e4 := hexVal_hexDigitChar (t % 16) (by omega)
  rw [hex4.eq_def, e1, e3, e4]
  dsimp only []
  congr 1
  omega


theorem parseStringBody_escFold :
    ∀ s rest, parseStringBody (escFold s ++ ('"' :: rest)) = some (s, rest) := by
  intro s
  induction s with
  | nil =>
      intro rest
      rw [escFold, List.nil_append, parseStringBody]
      rw [if_pos rfl]
  | cons c cs ih =>
      intro rest
      rw [escFold, List.append_assoc, escapeChar]
      by_cases h1 : c = '"'
      · rw [if_pos h1]
        subst h1
        rw [List.cons_append, List.cons_append, List.nil_append]
        rw [parseStringBody_esc '"' '"' (by decide) (by decide), ih]
        rfl
      · rw [if_neg h1]
        by_cases h2 : c = '\\'
        · rw [if_pos h2]
          subst h2
          rw [List.cons_append, List.cons_append, List.nil_append]
          rw [parseStringBody_esc '\\' '\\' (by decide) (by decide), ih]
          rfl
        · rw [if_neg h2]
          by_cases h3 : c = Char.ofNat 8
          · rw [if_pos h3]
            subst h3
            rw [List.cons_append, List.cons_append, List.nil_append]
            rw [parseStringBody_esc 'b' (Char.ofNat 8) (by decide) (by decide), ih]
            rfl
          · rw [if_neg h3]
            by_cases h4 : c = Char.ofNat 9
            · rw [if_pos h4]
              subst h4
              rw [List.cons_append, List.cons_append, List.nil_append]
              rw [parseStringBody_esc 't' (Char.ofNat 9) (by decide) (by decide), ih]
              rfl
            · rw [if_neg h4]
              by_cases h5 : c = Char.ofNat 10
              · rw [if_pos h5]
                subst h5
                rw [List.cons_append, List.cons_append, List.nil_append]
                rw [parseStringBody_esc 'n' (Char.ofNat 10) (by decide) (by decide), ih]
                rfl
              · rw [if_neg h5]
                by_cases h6 : c = Char.ofNat 12
                · rw [if_pos h6]
                  subst h6
                  rw [List.cons_append, List.cons_append, List.nil_append]
                  rw [parseStringBody_esc 'f' (Char.ofNat 12) (by decide) (by decide), ih]
                  rfl
                · rw [if_neg h6]
                  by_cases h7 : c = Char.ofNat 13
                  · rw [if_pos h7]
                    subst h7
                    rw [List.cons_append, List.cons_append, List.nil_append]
                    rw [parseStringBody_esc 'r' (Char.ofNat 13) (by decide) (by decide), ih]
                    rfl
                  · rw [if_neg h7]
                    by_cases h8 : c.toNat < 32
                    · rw [if_pos h8]
                      simp only [List.cons_append, List.nil_append]
                      rw [parseStringBody_u _ _ _ _ c.toNat (hex4_encode c.toNat (by omega)), ih]
                      rw [Char.ofNat_toNat]
                      rfl
                    · rw [if_neg h8]
                      rw [List.cons_append, List.nil_append]
                      rw [parseStringBody_raw c h1 h2 h8, ih]
                      rfl

/-! ### Head shapes of serialized values -/

theorem numChars_head (m : Int) (e : Nat) :
    ∃ c t, numChars m e = c :: t ∧ (c = '-' ∨ c.isDigit = true) := by
  rw [numChars]
  by_cases hm : m < 0
  · rw [if_pos hm]
    exact ⟨'-', _, rfl, Or.inl rfl⟩
  · rw [if_neg hm, List.nil_append]
    obtain ⟨d, t, hdt, hd⟩ := numBody_cons m.natAbs e
    exact ⟨d, t, hdt, Or.inr hd⟩

theorem emitVal_head (ind : Option Nat) (lvl : Nat) (j : Json) :
    ∃ c t, emitVal ind lvl j = c :: t ∧ isWs c = false ∧ c ≠ ']' ∧ c ≠ '}' := by
  cases j with
  | num m e =>
      obtain ⟨c, t, hct, hc⟩ := numChars_head m e
      have hprops : isWs c = false ∧ c ≠ ']' ∧ c ≠ '}' := by
        rcases hc with h | h
        · subst h
          refine ⟨?_, ?_, ?_⟩ <;> decide
        · exact ⟨isDigit_not_ws c h, isDigit_ne_of c h ']' (by decide),
            isDigit_ne_of c h '}' (by decide)⟩
      exact ⟨c, t, by rw [emitVal, hct], hprops.1, hprops.2.1, hprops.2.2⟩
  | bool b => cases b <;> (refine ⟨_, _, rfl, ?_, ?_, ?_⟩ <;> decide)
  | arr l => cases l <;> (refine ⟨_, _, rfl, ?_, ?_, ?_⟩ <;> decide)
  | obj l => cases l <;> (refine ⟨_, _, rfl, ?_, ?_, ?_⟩ <;> decide)
  | null => refine ⟨_, _, rfl, ?_, ?_, ?_⟩ <;> decide
  | inf b => refine ⟨_, _, rfl, ?_, ?_, ?_⟩ <;> decide
  | str s => refine ⟨_, _, rfl, ?_, ?_, ?_⟩ <;> decide

/-! ### `restOkP` construction -/

theorem restOkP_of_head (c : Char) (t : List Char)
    (h : isWs c = true ∨ c = ',' ∨ c = ']' ∨ c = '}') : restOkP (c :: t) := by
  rw [restOkP]
  exact h

theorem restOk_nlIndent (ind : Option Nat) (lvl : Nat) (c : Char) (rest : List Char)
    (hc : isWs c = true ∨ c = ',' ∨ c = ']' ∨ c = '}') :
    restOkP (nlIndent ind lvl ++ c :: rest) := by
  cases ind with
  | none => rw [nlIndent, List.nil_append]; exact restOkP_of_head c rest hc
  | some n =>
      rw [nlIndent, List.cons_append]
      exact restOkP_of_head _ _ (Or.inl (by decide))

theorem restOk_itemsTail (ind : Option Nat) (lvl lvl' : Nat) (vs : List Json)
    (rest : List Char) :
    restOkP (emitItemsTail ind lvl vs ++ (nlIndent ind lvl' ++ (']' :: rest))) := by
  cases vs with
  | nil =>
      rw [emitItemsTail, List.nil_append]
      exact restOk_nlIndent ind lvl' ']' rest (Or.inr (Or.inr (Or.inl rfl)))
  | cons v vs =>
      rw [emitItemsTail, List.cons_append]
      exact restOkP_of_head _ _ (Or.inr (Or.inl rfl))

theorem restOk_membersTail (ind : Option Nat) (lvl lvl' : Nat) (ps : List (String × Json))
    (rest : List Char) :
    restOkP (emitMembersTail ind lvl ps ++ (nlIndent ind lvl' ++ ('}' :: rest))) := by
  cases ps with
  | nil =>
      rw [emitMembersTail, List.nil_append]
      exact restOk_nlIndent ind lvl' '}' rest (Or.inr (Or.inr (Or.inr rfl)))
  | cons p ps =>
      rw [emitMembersTail, List.cons_append]
      exact restOkP_of_head _ _ (Or.inr (Or.inl rfl))

theorem expectChars_append (es rest : List Char) : expectChars es (es ++ rest) = some rest := by
  induction es with
  | nil => rfl
  | cons e es ih => rw [List.cons_append, expectChars, if_pos rfl, ih]

/-! ### Object construction: `buildObj` on duplicate-free member lists -/

theorem keyMem_append (x : String) (l1 l2 : List (String × Json)) :
    keyMem x (l1 ++ l2) = (keyMem x l1 || keyMem x l2) := by
  induction l1 with
  | nil => rfl
  | cons p ps ih => rw [List.cons_append, keyMem, keyMem, ih, Bool.or_assoc]

theorem keyMem_of_mem (q : String × Json) (ps : List (String × Json)) (h : q ∈ ps) :
    keyMem q.1 ps = true := by
  induction ps with
  | nil => cases h
  | cons p ps ih =>
      rw [keyMem]
      rcases List.mem_cons.mp h with h | h
      · subst h
        simp
      · rw [ih h, Bool.or_true]

theorem insertMember_not_mem (ps : List (String × Json)) (k : String) (v : Json)
    (h : keyMem k ps = false) : insertMember ps k v = ps ++ [(k, v)] := by
  induction ps with
  | nil => rfl
  | cons p ps ih =>
      rw [keyMem, Bool.or_eq_false_iff] at h
      have hne : ¬ p.1 = k := by
        intro hk
        have h1 := h.1
        rw [hk] at h1
        simp at h1
      rw [insertMember, if_neg hne, ih h.2, List.cons_append]

theorem buildObjAux_disjoint :
    ∀ ps acc, keysUnique ps = true → (∀ q ∈ ps, keyMem q.1 acc = false) →
      buildObjAux acc ps = acc ++ ps := by
  intro ps
  induction ps with
  | nil =>
      intro acc _ _
      rw [buildObjAux, List.append_nil]
  | cons p ps ih =>
      intro acc hu hd
      rw [keysUnique, Bool.and_eq_true] at hu
      have hd2 : ∀ q ∈ ps, keyMem q.1 (acc ++ [(p.1, p.2)]) = false := by
        intro q hq
        rw [keyMem_append, Bool.or_eq_false_iff]
        refine ⟨hd q (List.mem_cons_of_mem p hq), ?_⟩
        rw [keyMem, keyMem, Bool.or_false]
        have hne : ¬ p.1 = q.1 := by
          intro hk
          have h1 := hu.1
          rw [hk, keyMem_of_mem q ps hq] at h1
          exact Bool.noConfusion h1
        exact decide_eq_false hne
      rw [buildObjAux, insertMember_not_mem acc p.1 p.2 (hd p (List.mem_cons_self p ps)),
        ih (acc ++ [(p.1, p.2)]) hu.2 hd2, List.append_assoc]
      rfl

theorem buildObj_of_unique (ms : List (String × Json)) (h : keysUnique ms = true) :
    buildObj ms = ms := by
  rw [buildObj, buildObjAux_disjoint ms [] h (fun q _ => rfl), List.nil_append]

theorem emitMember_proj (ind : Option Nat) (lvl : Nat) (p : String × Json) :
    emitMember ind lvl p
      = '"' :: escFold p.1.data ++ '"' :: ':' :: (colonSep ind ++ emitVal ind lvl p.2) := by
  obtain ⟨k, v⟩ := p
  rfl

/-! ### The parse / emit round trip -/

mutual

theorem parseVal_emit (ind : Option Nat) (lvl f : Nat) (j : Json) (rest : List Char)
    (hrest : restOkP rest) (hwf : finiteWf j = true) :
    parseVal (f + fsize j) (emitVal ind lvl j ++ rest) = some (j, rest) := by
  cases j with
  | null => rfl
  | inf b =>
      rw [finiteWf] at hwf
      exact Bool.noConfusion hwf
  | bool b => cases b with
      | true => rfl
      | false => rfl
  | num m e =>
      rw [fsize, parseVal]
      simp only [emitVal]
      obtain ⟨c, t, hct, hc⟩ := numChars_head m e
      have hw : isWs c = false := by
        rcases hc with h | h
        · subst h; decide
        · exact isDigit_not_ws c h
      have hn : c ≠ 'n' := by
        rcases hc with h | h
        · subst h; decide
        · exact isDigit_ne_of c h 'n' (by decide)
      have ht : c ≠ 't' := by
        rcases hc with h | h
        · subst h; decide
        · exact isDigit_ne_of c h 't' (by decide)
      have hf : c ≠ 'f' := by
        rcases hc with h | h
        · subst h; decide
        · exact isDigit_ne_of c h 'f' (by decide)
      have hq : c ≠ '"' := by
        rcases hc with h | h
        · subst h; decide
        · exact isDigit_ne_of c h '"' (by decide)
      have hb : c ≠ '[' := by
        rcases hc with h | h
        · subst h; decide
        · exact isDigit_ne_of c h '[' (by decide)
      have hbr : c ≠ '{' := by
        rcases hc with h | h
        · subst h; decide
        · exact isDigit_ne_of c h '{' (by decide)
      rw [hct, List.cons_append, skipWs_cons_not _ _ hw]
      dsimp only []
      rw [if_neg hn, if_neg ht, if_neg hf, if_neg hq, if_neg hb, if_neg hbr]
      rw [if_pos hc]
      rw [← List.cons_append, ← hct, parseNumber_numChars m e rest hrest]
      have hov : overflowsDouble m e = false := by
        cases hov : overflowsDouble m e with
        | false => rfl
        | true =>
            rw [finiteWf, hov] at hwf
            exact Bool.noConfusion hwf
      simp only [Option.map_some']
      rw [mkNum, if_neg (by rw [hov]; exact Bool.false_ne_true)]
  | str s =>
      rw [fsize, parseVal]
      simp only [emitVal, List.cons_append, List.nil_append, List.append_assoc]
      rw [skipWs_cons_not _ _ (by decide)]
      dsimp only []
      rw [if_neg (by decide), if_neg (by decide), if_neg (by decide), if_pos rfl]
      rw [parseStringBody_escFold s.data]
      rfl
  | arr l =>
      cases l with
      | nil => rfl
      | cons v vs =>
          rw [finiteWf, finiteWfItems, Bool.and_eq_true] at hwf
          obtain ⟨hv, hvs⟩ := hwf
          have hfs : f + fsize (Json.arr (v :: vs)) = (f + 1 + fsize v + fsizeItems vs) + 1 := by
            rw [fsize, fsizeItems]
            omega
          rw [hfs, parseVal]
          simp only [emitVal, List.cons_append, List.nil_append, List.append_assoc]
          rw [skipWs_cons_not _ _ (by decide)]
          dsimp only []
          rw [if_neg (by decide), if_neg (by decide), if_neg (by decide), if_neg (by decide),
            if_pos rfl]
          have hfs2 : f + 1 + fsize v + fsizeItems vs = (f + fsize v + fsizeItems vs) + 1 := by
            omega
          rw [hfs2, parseItems]
          rw [skipWs_append_ws _ _ (nlIndent_ws ind (lvl + 1))]
          obtain ⟨c0, t0, h0, hw0, hne0, hne0b⟩ := emitVal_head ind (lvl + 1) v
          rw [h0, List.cons_append, skipWs_cons_not _ _ hw0]
          dsimp only []
          rw [if_neg hne0]
          rw [← List.cons_append, ← h0]
          have harith : f + fsize v + fsizeItems vs = (f + fsizeItems vs) + fsize v := by omega
          rw [harith]
          rw [parseVal_emit ind (lvl + 1) (f + fsizeItems vs) v _
            (restOk_itemsTail ind (lvl + 1) lvl vs rest) hv]
          simp only [Option.some_bind]
          have harith2 : f + fsizeItems vs + fsize v = (f + fsize v) + fsizeItems vs := by omega
          rw [harith2]
          rw [parseItemsTail_emit ind (lvl + 1) lvl (f + fsize v) vs rest hrest hvs]
          rfl
  | obj l =>
      cases l with
      | nil => rfl
      | cons p ps =>
          rw [finiteWf, Bool.and_eq_true] at hwf
          obtain ⟨hku, hm⟩ := hwf
          rw [finiteWfMembers, Bool.and_eq_true] at hm
          obtain ⟨hv, hps⟩ := hm
          have hfs : f + fsize (Json.obj (p :: ps))
              = (f + 1 + fsize p.2 + fsizeMembers ps) + 1 := by
            rw [fsize, fsizeMembers]
            omega
          rw [hfs, parseVal]
          simp only [emitVal, emitMember_proj, List.cons_append, List.nil_append,
            List.append_assoc]
          rw [skipWs_cons_not _ _ (by decide)]
          dsimp only []
          rw [if_neg (by decide), if_neg (by decide), if_neg (by decide), if_neg (by decide),
            if_neg (by decide), if_pos rfl]
          have hfs2 : f + 1 + fsize p.2 + fsizeMembers ps
              = (f + fsize p.2 + fsizeMembers ps) + 1 := by omega
          rw [hfs2, parseMembers]
          rw [skipWs_append_ws _ _ (nlIndent_ws ind (lvl + 1))]
          rw [skipWs_cons_not _ _ (by decide)]
          dsimp only []
          rw [if_neg (by decide), if_pos rfl]
          rw [parseStringBody_escFold p.1.data]
          simp only [Option.some_bind]
          rw [skipWs_cons_not _ _ (by decide)]
          dsimp only []
          rw [if_pos rfl]
          rw [parseVal_ws_append _ _ _ (colonSep_ws ind)]
          have harith : f + fsize p.2 + fsizeMembers ps = (f + fsizeMembers ps) + fsize p.2 := by
            omega
          rw [harith]
          rw [parseVal_emit ind (lvl + 1) (f + fsizeMembers ps) p.2 _
            (restOk_membersTail ind (lvl + 1) lvl ps rest) hv]
          simp only [Option.some_bind]
          have harith2 : f + fsizeMembers ps + fsize p.2 = (f + fsize p.2) + fsizeMembers ps := by
            omega
          rw [harith2]
          rw [parseMembersTail_emit ind (lvl + 1) lvl (f + fsize p.2) ps rest hrest hps]
          show Option.map (fun q => (Json.obj (buildObj q.1), q.2)) (some (p :: ps, rest))
            = some (Json.obj (p :: ps), rest)
          simp only [Option.map_some']
          rw [buildObj_of_unique _ hku]
termination_by sizeOf j
decreasing_by all_goals (subst_vars; first | decreasing_tactic | (cases p; decreasing_tactic))

theorem parseItemsTail_emit (ind : Option Nat) (lvl lvl' f : Nat) (vs : List Json)
    (rest : List Char) (hrest : restOkP rest) (hwfs : finiteWfItems vs = true) :
    parseItemsTail (f + fsizeItems vs)
      (emitItemsTail ind lvl vs ++ (nlIndent ind lvl' ++ (']' :: rest)))
      = some (vs, rest) := by
  cases vs with
  | nil =>
      rw [fsizeItems, emitItemsTail, List.nil_append]
      rw [parseItemsTail]
      rw [skipWs_append_ws _ _ (nlIndent_ws ind lvl'), skipWs_cons_not _ _ (by decide)]
      dsimp only []
      rw [if_pos rfl]
  | cons v vs =>
      rw [finiteWfItems, Bool.and_eq_true] at hwfs
      obtain ⟨hv, hvs⟩ := hwfs
      have hfs : f + fsizeItems (v :: vs) = (f + fsize v + fsizeItems vs) + 1 := by
        rw [fsizeItems]
        omega
      rw [hfs, emitItemsTail]
      simp only [List.cons_append, List.nil_append, List.append_assoc]
      rw [parseItemsTail]
      rw [skipWs_cons_not _ _ (by decide)]
      dsimp only []
      rw [if_neg (by decide), if_pos rfl]
      rw [parseVal_ws_append _ _ _ (nlIndent_ws ind lvl)]
      have harith : f + fsize v + fsizeItems vs = (f + fsizeItems vs) + fsize v := by omega
      rw [harith]
      rw [parseVal_emit ind lvl (f + fsizeItems vs) v _
        (restOk_itemsTail ind lvl lvl' vs rest) hv]
      simp only [Option.some_bind]
      have harith2 : f + fsizeItems vs + fsize v = (f + fsize v) + fsizeItems vs := by omega
      rw [harith2]
      rw [parseItemsTail_emit ind lvl lvl' (f + fsize v) vs rest hrest hvs]
      rfl
termination_by sizeOf vs
decreasing_by all_goals (subst_vars; decreasing_tactic)


theorem parseMembersTail_emit (ind : Option Nat) (lvl lvl' f : Nat)
    (ps : List (String × Json)) (rest : List Char) (hrest : restOkP rest)
    (hwfs : finiteWfMembers ps = true) :
    parseMembersTail (f + fsizeMembers ps)
      (emitMembersTail ind lvl ps ++ (nlIndent ind lvl' ++ ('}' :: rest)))
      = some (ps, rest) := by
  cases ps with
  | nil =>
      rw [fsizeMembers, emitMembersTail, List.nil_append]
      rw [parseMembersTail]
      rw [skipWs_append_ws _ _ (nlIndent_ws ind lvl'), skipWs_cons_not _ _ (by decide)]
      dsimp only []
      rw [if_pos rfl]
  | cons p ps =>
      rw [finiteWfMembers, Bool.and_eq_true] at hwfs
      obtain ⟨hv, hps⟩ := hwfs
      have hfs : f + fsizeMembers (p :: ps) = (f + fsize p.2 + fsizeMembers ps) + 1 := by
        rw [fsizeMembers]
        omega
      rw [hfs, emitMembersTail]
      simp only [emitMember_proj, List.cons_append, List.nil_append, List.append_assoc]
      rw [parseMembersTail]
      rw [skipWs_cons_not _ _ (by decide)]
      dsimp only []
      rw [if_neg (by decide), if_pos rfl]
      rw [skipWs_append_ws _ _ (nlIndent_ws ind lvl), skipWs_cons_not _ _ (by decide)]
      dsimp only []
      rw [if_pos rfl]
      rw [parseStringBody_escFold p.1.data]
      simp only [Option.some_bind]
      rw [skipWs_cons_not _ _ (by decide)]
      dsimp only []
      rw [if_pos rfl]
      rw [parseVal_ws_append _ _ _ (colonSep_ws ind)]
      have harith : f + fsize p.2 + fsizeMembers ps = (f + fsizeMembers ps) + fsize p.2 := by
        omega
      rw [harith]
      rw [parseVal_emit ind lvl (f + fsizeMembers ps) p.2 _
        (restOk_membersTail ind lvl lvl' ps rest) hv]
      simp only [Option.some_bind]
      have harith2 : f + fsizeMembers ps + fsize p.2 = (f + fsize p.2) + fsizeMembers ps := by
        omega
      rw [harith2]
      rw [parseMembersTail_emit ind lvl lvl' (f + fsize p.2) ps rest hrest hps]
      rfl
termination_by sizeOf ps
decreasing_by all_goals (subst_vars; first | decreasing_tactic | (cases p; decreasing_tactic))

end

/-! ### Fuel bound: the serialized form is parsed within `jsonParse` fuel -/

mutual

theorem fsize_le (ind : Option Nat) (lvl : Nat) (j : Json) :
    fsize j ≤ 3 * (emitVal ind lvl j).length := by
  cases j with
  | null => rw [fsize]; simp [emitVal]
  | inf b => rw [fsize]; simp [emitVal]
  | bool b => cases b with
      | true => rw [fsize]; simp [emitVal]
      | false => rw [fsize]; simp [emitVal]
  | num m e =>
      rw [fsize]
      obtain ⟨c, t, hct, _⟩ := numChars_head m e
      have : emitVal ind lvl (Json.num m e) = c :: t := by rw [emitVal, hct]
      rw [this]
      simp
      omega
  | str s =>
      rw [fsize]
      simp [emitVal]
      omega
  | arr l =>
      cases l with
      | nil => rw [fsize, fsizeItems]; simp [emitVal]
      | cons v vs =>
          have h1 := fsize_le ind (lvl + 1) v
          have h2 := fsizeItems_le ind (lvl + 1) vs
          rw [fsize, fsizeItems]
          simp only [emitVal, List.length_cons, List.length_append]
          omega
  | obj l =>
      cases l with
      | nil => rw [fsize, fsizeMembers]; simp [emitVal]
      | cons p ps =>
          obtain ⟨k, v⟩ := p
          have h1 := fsize_le ind (lvl + 1) v
          have h2 := fsizeMembers_le ind (lvl + 1) ps
          rw [fsize, fsizeMembers]
          dsimp only []
          simp only [emitVal, emitMember, List.length_cons, List.length_append]
          omega
termination_by sizeOf j

theorem fsizeItems_le (ind : Option Nat) (lvl : Nat) (vs : List Json) :
    fsizeItems vs ≤ 3 * (emitItemsTail ind lvl vs).length + 1 := by
  cases vs with
  | nil => rw [fsizeItems, emitItemsTail]; simp
  | cons v vs =>
      have h1 := fsize_le ind lvl v
      have h2 := fsizeItems_le ind lvl vs
      rw [fsizeItems, emitItemsTail]
      simp only [List.length_cons, List.length_append]
      omega
termination_by sizeOf vs

theorem fsizeMembers_le (ind : Option Nat) (lvl : Nat) (ps : List (String × Json)) :
    fsizeMembers ps ≤ 3 * (emitMembersTail ind lvl ps).length + 1 := by
  cases ps with
  | nil => rw [fsizeMembers, emitMembersTail]; simp
  | cons p ps =>
      obtain ⟨k, v⟩ := p
      have h1 := fsize_le ind lvl v
      have h2 := fsizeMembers_le ind lvl ps
      rw [fsizeMembers, emitMembersTail]
      dsimp only []
      simp only [emitMember, List.length_cons, List.length_append]
      omega
termination_by sizeOf ps

end

/-! ### The round trip through `jsonParse` -/

theorem jsonParse_emit (ind : Option Nat) (j : Json) (hwf : finiteWf j = true) :
    jsonParse (String.mk (emitVal ind 0 j)) = some j := by
  rw [jsonParse]
  dsimp only []
  have hl : (String.mk (emitVal ind 0 j)).length = (emitVal ind 0 j).length := rfl
  rw [hl]
  have hfuel : 3 * (emitVal ind 0 j).length + 1
      = (3 * (emitVal ind 0 j).length + 1 - fsize j) + fsize j := by
    have := fsize_le ind 0 j
    omega
  rw [hfuel]
  have hp := parseVal_emit ind 0 (3 * (emitVal ind 0 j).length + 1 - fsize j) j [] trivial hwf
  rw [List.append_nil] at hp
  rw [hp]
  rfl

theorem jsonParse_jsonStringify (j : Json) (hwf : finiteWf j = true) :
    jsonParse (jsonStringify j) = some j :=
  jsonParse_emit none j hwf

theorem jsonParse_jsonStringify2 (j : Json) (hwf : finiteWf j = true) :
    jsonParse (jsonStringify2 j) = some j :=
  jsonParse_emit (some 2) j hwf

/-! ### Every value `JSON.parse` returns is well formed -/

theorem not_eq_true_eq_false (b : Bool) (h : (!b) = true) : b = false := by
  cases b with
  | false => rfl
  | true => exact Bool.noConfusion h

theorem wfVal_mkNum (m : Int) (e : Nat) : wfVal (mkNum m e) = true := by
  rw [mkNum]
  cases h : overflowsDouble m e with
  | true => rfl
  | false =>
      show wfVal (Json.num m e) = true
      rw [wfVal, h]
      rfl

theorem keyMem_insertMember (x k : String) (v : Json) (ps : List (String × Json)) :
    keyMem x (insertMember ps k v) = (keyMem x ps || decide (k = x)) := by
  induction ps with
  | nil => simp [insertMember, keyMem]
  | cons p ps ih =>
      rw [insertMember]
      by_cases hk : p.1 = k
      · rw [if_pos hk, keyMem, keyMem]
        dsimp only []
        rw [hk]
        cases decide (k = x) <;> cases keyMem x ps <;> rfl
      · rw [if_neg hk, keyMem, keyMem, ih, ← Bool.or_assoc]

theorem keysUnique_insertMember (ps : List (String × Json)) (k : String) (v : Json)
    (h : keysUnique ps = true) : keysUnique (insertMember ps k v) = true := by
  induction ps with
  | nil => rfl
  | cons p ps ih =>
      rw [keysUnique, Bool.and_eq_true] at h
      rw [insertMember]
      by_cases hk : p.1 = k
      · rw [if_pos hk, keysUnique, Bool.and_eq_true]
        refine ⟨?_, h.2⟩
        show (!keyMem k ps) = true
        rw [← hk]
        exact h.1
      · rw [if_neg hk, keysUnique, Bool.and_eq_true]
        refine ⟨?_, ih h.2⟩
        rw [keyMem_insertMember, not_eq_true_eq_false _ h.1,
          decide_eq_false (fun hkk => hk hkk.symm)]
        rfl

theorem wfValMembers_insertMember (ps : List (String × Json)) (k : String) (v : Json)
    (hps : wfValMembers ps = true) (hv : wfVal v = true) :
    wfValMembers (insertMember ps k v) = true := by
  induction ps with
  | nil =>
      rw [insertMember, wfValMembers]
      dsimp only []
      rw [hv, wfValMembers]
      rfl
  | cons p ps ih =>
      rw [wfValMembers, Bool.and_eq_true] at hps
      rw [insertMember]
      by_cases hk : p.1 = k
      · rw [if_pos hk, wfValMembers]
        dsimp only []
        rw [hv, hps.2]
        rfl
      · rw [if_neg hk, wfValMembers, hps.1, ih hps.2]
        rfl

theorem wfValMembers_forall (ps : List (String × Json)) (h : wfValMembers ps = true) :
    ∀ q ∈ ps, wfVal q.2 = true := by
  induction ps with
  | nil => intro q hq; cases hq
  | cons p ps ih =>
      rw [wfValMembers, Bool.and_eq_true] at h
      intro q hq
      rcases List.mem_cons.mp hq with hq | hq
      · subst hq
        exact h.1
      · exact ih h.2 q hq

theorem keysUnique_buildObjAux :
    ∀ ps acc, keysUnique acc = true → keysUnique (buildObjAux acc ps) = true := by
  intro ps
  induction ps with
  | nil => intro acc h; rw [buildObjAux]; exact h
  | cons p ps ih =>
      intro acc h
      rw [buildObjAux]
      exact ih _ (keysUnique_insertMember acc p.1 p.2 h)

theorem wfValMembers_buildObjAux :
    ∀ ps acc, wfValMembers acc = true → (∀ q ∈ ps, wfVal q.2 = true) →
      wfValMembers (buildObjAux acc ps) = true := by
  intro ps
  induction ps with
  | nil => intro acc h _; rw [buildObjAux]; exact h
  | cons p ps ih =>
      intro acc h hall
      rw [buildObjAux]
      exact ih _ (wfValMembers_insertMember acc p.1 p.2 h (hall p (List.mem_cons_self p ps)))
        (fun q hq => hall q (List.mem_cons_of_mem p hq))

theorem wfVal_buildObj (ms : List (String × Json)) (h : wfValMembers ms = true) :
    wfVal (Json.obj (buildObj ms)) = true := by
  rw [wfVal, buildObj, Bool.and_eq_true]
  exact ⟨keysUnique_buildObjAux ms [] rfl,
    wfValMembers_buildObjAux ms [] rfl (wfValMembers_forall ms h)⟩

theorem parser_wf :
    ∀ f,
      (∀ cs j r, parseVal f cs = some (j, r) → wfVal j = true)
      ∧ (∀ cs l r, parseItems f cs = some (l, r) → wfValItems l = true)
      ∧ (∀ cs l r, parseItemsTail f cs = some (l, r) → wfValItems l = true)
      ∧ (∀ cs ms r, parseMembers f cs = some (ms, r) → wfValMembers ms = true)
      ∧ (∀ cs ms r, parseMembersTail f cs = some (ms, r) → wfValMembers ms = true) := by
  intro f
  induction f with
  | zero =>
      refine ⟨?_, ?_, ?_, ?_, ?_⟩ <;> (intro cs x r h; exact Option.noConfusion h)
  | succ f ih =>
      obtain ⟨ihV, ihI, ihIT, ihM, ihMT⟩ := ih
      refine ⟨?_, ?_, ?_, ?_, ?_⟩
      · intro cs j r h
        rw [parseVal] at h
        cases hsw : skipWs cs with
        | nil => rw [hsw] at h; exact Option.noConfusion h
        | cons c cs' =>
            rw [hsw] at h
            dsimp only [] at h
            by_cases hn : c = 'n'
            · rw [if_pos hn, Option.map_eq_some'] at h
              obtain ⟨a, _, h2⟩ := h
              injection h2 with h3 _
              subst h3
              rfl
            · rw [if_neg hn] at h
              by_cases ht : c = 't'
              · rw [if_pos ht, Option.map_eq_some'] at h
                obtain ⟨a, _, h2⟩ := h
                injection h2 with h3 _
                subst h3
                rfl
              · rw [if_neg ht] at h
                by_cases hf : c = 'f'
                · rw [if_pos hf, Option.map_eq_some'] at h
                  obtain ⟨a, _, h2⟩ := h
                  injection h2 with h3 _
                  subst h3
                  rfl
                · rw [if_neg hf] at h
                  by_cases hq : c = '"'
                  · rw [if_pos hq, Option.map_eq_some'] at h
                    obtain ⟨a, _, h2⟩ := h
                    injection h2 with h3 _
                    subst h3
                    rfl
                  · rw [if_neg hq] at h
                    by_cases hb : c = '['
                    · rw [if_pos hb, Option.map_eq_some'] at h
                      obtain ⟨p, hp, h2⟩ := h
                      injection h2 with h3 _
                      subst h3
                      rw [wfVal]
                      exact ihI cs' p.1 p.2 hp
                    · rw [if_neg hb] at h
                      by_cases hbr : c = '{'
                      · rw [if_pos hbr, Option.map_eq_some'] at h
                        obtain ⟨p, hp, h2⟩ := h
                        injection h2 with h3 _
                        subst h3
                        exact wfVal_buildObj p.1 (ihM cs' p.1 p.2 hp)
                      · rw [if_neg hbr] at h
                        by_cases hnum : c = '-' ∨ c.isDigit = true
                        · rw [if_pos hnum, Option.map_eq_some'] at h
                          obtain ⟨p, _, h2⟩ := h
                          injection h2 with h3 _
                          subst h3
                          exact wfVal_mkNum p.1.1 p.1.2
                        · rw [if_neg hnum] at h
                          exact Option.noConfusion h
      · intro cs l r h
        rw [parseItems] at h
        cases hsw : skipWs cs with
        | nil => rw [hsw] at h; exact Option.noConfusion h
        | cons c cs' =>
            rw [hsw] at h
            dsimp only [] at h
            by_cases hc : c = ']'
            · rw [if_pos hc] at h
              injection h with h2
              injection h2 with h3 _
              subst h3
              rfl
            · rw [if_neg hc, Option.bind_eq_some] at h
              obtain ⟨vr, hv, h2⟩ := h
              rw [Option.map_eq_some'] at h2
              obtain ⟨p, hp, h3⟩ := h2
              injection h3 with h4 _
              subst h4
              rw [wfValItems, Bool.and_eq_true]
              exact ⟨ihV _ vr.1 vr.2 hv, ihIT _ p.1 p.2 hp⟩
      · intro cs l r h
        rw [parseItemsTail] at h
        cases hsw : skipWs cs with
        | nil => rw [hsw] at h; exact Option.noConfusion h
        | cons c cs' =>
            rw [hsw] at h
            dsimp only [] at h
            by_cases hc : c = ']'
            · rw [if_pos hc] at h
              injection h with h2
              injection h2 with h3 _
              subst h3
              rfl
            · rw [if_neg hc] at h
              by_cases hcm : c = ','
              · rw [if_pos hcm, Option.bind_eq_some] at h
                obtain ⟨vr, hv, h2⟩ := h
                rw [Option.map_eq_some'] at h2
                obtain ⟨p, hp, h3⟩ := h2
                injection h3 with h4 _
                subst h4
                rw [wfValItems, Bool.and_eq_true]
                exact ⟨ihV _ vr.1 vr.2 hv, ihIT _ p.1 p.2 hp⟩
              · rw [if_neg hcm] at h
                exact Option.noConfusion h
      · intro cs ms r h
        rw [parseMembers] at h
        cases hsw : skipWs cs with
        | nil => rw [hsw] at h; exact Option.noConfusion h
        | cons c cs' =>
            rw [hsw] at h
            dsimp only [] at h
            by_cases hc : c = '}'
            · rw [if_pos hc] at h
              injection h with h2
              injection h2 with h3 _
              subst h3
              rfl
            · rw [if_neg hc] at h
              by_cases hq : c = '"'
              · rw [if_pos hq, Option.bind_eq_some] at h
                obtain ⟨kr, hk, h2⟩ := h
                cases hsw2 : skipWs kr.2 with
                | nil => rw [hsw2] at h2; exact Option.noConfusion h2
                | cons c2 r3 =>
                    rw [hsw2] at h2
                    dsimp only [] at h2
                    by_cases hcol : c2 = ':'
                    · rw [if_pos hcol, Option.bind_eq_some] at h2
                      obtain ⟨vr, hv, h3⟩ := h2
                      rw [Option.map_eq_some'] at h3
                      obtain ⟨p, hp, h4⟩ := h3
                      injection h4 with h5 _
                      subst h5
                      rw [wfValMembers]
                      dsimp only []
                      rw [Bool.and_eq_true]
                      exact ⟨ihV _ vr.1 vr.2 hv, ihMT _ p.1 p.2 hp⟩
                    · rw [if_neg hcol] at h2
                      exact Option.noConfusion h2
              · rw [if_neg hq] at h
                exact Option.noConfusion h
      · intro cs ms r h
        rw [parseMembersTail] at h
        cases hsw : skipWs cs with
        | nil => rw [hsw] at h; exact Option.noConfusion h
        | cons c cs' =>
            rw [hsw] at h
            dsimp only [] at h
            by_cases hc : c = '}'
            · rw [if_pos hc] at h
              injection h with h2
              injection h2 with h3 _
              subst h3
              rfl
            · rw [if_neg hc] at h
              by_cases hcm : c = ','
              · rw [if_pos hcm] at h
                cases hsw1 : skipWs cs' with
                | nil => rw [hsw1] at h; exact Option.noConfusion h
                | cons c1 r1 =>
                    rw [hsw1] at h
                    dsimp only [] at h
                    by_cases hq : c1 = '"'
                    · rw [if_pos hq, Option.bind_eq_some] at h
                      obtain ⟨kr, hk, h2⟩ := h
                      cases hsw2 : skipWs kr.2 with
                      | nil => rw [hsw2] at h2; exact Option.noConfusion h2
                      | cons c2 r3 =>
                          rw [hsw2] at h2
                          dsimp only [] at h2
                          by_cases hcol : c2 = ':'
                          · rw [if_pos hcol, Option.bind_eq_some] at h2
                            obtain ⟨vr, hv, h3⟩ := h2
                            rw [Option.map_eq_some'] at h3
                            obtain ⟨p, hp, h4⟩ := h3
                            injection h4 with h5 _
                            subst h5
                            rw [wfValMembers]
                            dsimp only []
                            rw [Bool.and_eq_true]
                            exact ⟨ihV _ vr.1 vr.2 hv, ihMT _ p.1 p.2 hp⟩
                          · rw [if_neg hcol] at h2
                            exact Option.noConfusion h2
                    · rw [if_neg hq] at h
                      exact Option.noConfusion h
              · rw [if_neg hcm] at h
                exact Option.noConfusion h

theorem jsonParse_wf (s : String) (j : Json) (h : jsonParse s = some j) :
    wfVal j = true := by
  rw [jsonParse] at h
  cases hp : parseVal (3 * s.length + 1) s.data with
  | none => rw [hp] at h; exact Option.noConfusion h
  | some p =>
      obtain ⟨j1, r1⟩ := p
      rw [hp] at h
      dsimp only [] at h
      by_cases hr : skipWs r1 = []
      · rw [if_pos hr] at h
        injection h with h2
        subst h2
        exact (parser_wf (3 * s.length + 1)).1 s.data j1 r1 hp
      · rw [if_neg hr] at h
        exact Option.noConfusion h

/-! ### Well-formed and infinity-free values are exactly the `finiteWf` ones -/

mutual

theorem finiteWf_of (j : Json) (hw : wfVal j = true) (hn : noInf j = true) :
    finiteWf j = true := by
  cases j with
  | null => rfl
  | bool b => rfl
  | num m e =>
      rw [finiteWf]
      rw [wfVal] at hw
      exact hw
  | inf b =>
      rw [noInf] at hn
      exact Bool.noConfusion hn
  | str s => rfl
  | arr l =>
      rw [finiteWf]
      rw [wfVal] at hw
      rw [noInf] at hn
      exact finiteWfItems_of l hw hn
  | obj l =>
      rw [finiteWf, Bool.and_eq_true]
      rw [wfVal, Bool.and_eq_true] at hw
      rw [noInf] at hn
      exact ⟨hw.1, finiteWfMembers_of l hw.2 hn⟩
termination_by sizeOf j
decreasing_by all_goals (subst_vars; decreasing_tactic)

theorem finiteWfItems_of (vs : List Json) (hw : wfValItems vs = true)
    (hn : noInfItems vs = true) : finiteWfItems vs = true := by
  cases vs with
  | nil => rfl
  | cons v vs =>
      rw [finiteWfItems, Bool.and_eq_true]
      rw [wfValItems, Bool.and_eq_true] at hw
      rw [noInfItems, Bool.and_eq_true] at hn
      exact ⟨finiteWf_of v hw.1 hn.1, finiteWfItems_of vs hw.2 hn.2⟩
termination_by sizeOf vs
decreasing_by all_goals (subst_vars; decreasing_tactic)

theorem finiteWfMembers_of (ps : List (String × Json)) (hw : wfValMembers ps = true)
    (hn : noInfMembers ps = true) : finiteWfMembers ps = true := by
  cases ps with
  | nil => rfl
  | cons p ps =>
      rw [finiteWfMembers, Bool.and_eq_true]
      rw [wfValMembers, Bool.and_eq_true] at hw
      rw [noInfMembers, Bool.and_eq_true] at hn
      exact ⟨finiteWf_of p.2 hw.1 hn.1, finiteWfMembers_of ps hw.2 hn.2⟩
termination_by sizeOf ps
decreasing_by all_goals (subst_vars; first | decreasing_tactic | (cases p; decreasing_tactic))

end

/-! ### Handler-level facts -/

theorem koubei_fetched (idParam : Option String) (upstream : String → UpstreamResp) :
    (koubei.onRequestGet idParam upstream).fetched
      = if idParam.getD "" = "" then [] else [fileUrlOf (idParam.getD "")] := by
  simp only [koubei.onRequestGet]
  by_cases h : idParam.getD "" = ""
  · rw [if_pos h, if_pos h]
  · rw [if_neg h, if_neg h]
    by_cases hok : fetchOk (upstream (fileUrlOf (idParam.getD ""))) = false
    · rw [if_pos hok]
    · rw [if_neg hok]
      cases hj : jsonParse (upstream (fileUrlOf (idParam.getD ""))).body with
      | some j => rfl
      | none => rfl

theorem part000_fetched (idParam : Option String) (upstream : String → UpstreamResp) :
    (part000.onRequestGet idParam upstream).fetched
      = [fileUrlOf (if idParam.getD "" = "" then "197" else idParam.getD "")] := by
  simp only [part000.onRequestGet]
  by_cases hok : fetchOk
      (upstream (fileUrlOf (if idParam.getD "" = "" then "197" else idParam.getD ""))) = false
  · rw [if_pos hok]
  · rw [if_neg hok]
    cases hj : jsonParse
        (upstream (fileUrlOf (if idParam.getD "" = "" then "197" else idParam.getD ""))).body with
    | some j => rfl
    | none => rfl

theorem koubei_ok_result (id : String) (upstream : String → UpstreamResp) (j : Json)
    (hid : id ≠ "")
    (hok : fetchOk (upstream (fileUrlOf id)) = true)
    (hjson : jsonParse (upstream (fileUrlOf id)).body = some j) :
    koubei.onRequestGet (some id) upstream
      = { result := Except.ok
            { status := 200
              contentType := "application/json"
              body := jsonStringify j }
          fetched := [fileUrlOf id] } := by
  simp only [koubei.onRequestGet]
  rw [show (some id).getD "" = id from rfl, if_neg hid, if_neg (by rw [hok]; decide), hjson]

theorem part000_ok_result (id : String) (upstream : String → UpstreamResp) (j : Json)
    (hid : id ≠ "")
    (hok : fetchOk (upstream (fileUrlOf id)) = true)
    (hjson : jsonParse (upstream (fileUrlOf id)).body = some j) :
    part000.onRequestGet (some id) upstream
      = { result := Except.ok
            { status := 200
              contentType := "application/json"
              body := jsonStringify2 j }
          fetched := [fileUrlOf id] } := by
  simp only [part000.onRequestGet]
  rw [show (if (some id).getD "" = "" then "197" else (some id).getD "") = id from by
    rw [show (some id).getD "" = id from rfl, if_neg hid]]
  rw [if_neg (by rw [hok]; decide), hjson]

/-! ## The claims -/

/-- C1: In the strict variant (`functions/api/koubei.js`), for every inbound
GET request whose query string has no `id` parameter or an empty `id`, the
handler returns status 400 with body exactly `{"error":"missing id"}` and
Content-Type `application/json`, and performs no outbound fetch. -/
theorem C1_strict_missing_id_400 (idParam : Option String)
    (upstream : String → UpstreamResp) (h : idParam = none ∨ idParam = some "") :
    koubei.onRequestGet idParam upstream
      = { result := Except.ok
            { status := 400
              contentType := "application/json"
              body := "\x7b\"error\":\"missing id\"\x7d" }
          fetched := [] } := by
  rcases h with h | h <;> subst h <;> rfl

/-- Witness for C1: the concrete request with no `id` parameter. -/
theorem C1_strict_missing_id_400_witness :
    koubei.onRequestGet none (fun _ => ⟨200, "\x7b\x7d"⟩)
      = { result := Except.ok
            { status := 400
              contentType := "application/json"
              body := "\x7b\"error\":\"missing id\"\x7d" }
          fetched := [] } :=
  C1_strict_missing_id_400 none (fun _ => ⟨200, "\x7b\x7d"⟩) (Or.inl rfl)

/-- C2: In both variants, whenever the upstream fetch returns any non-2xx
status, the handler returns status 404 with the variant's error envelope
(`{"error":"file not found"}` strict, `{"error":"File not found"}` lenient),
regardless of the specific upstream status code. -/
theorem C2_upstream_failure_404 (id : String) (idParam : Option String)
    (upstream : String → UpstreamResp)
    (hid : id ≠ "") (hfail : ∀ url, fetchOk (upstream url) = false) :
    (koubei.onRequestGet (some id) upstream).result
        = Except.ok
            { status := 404
              contentType := "application/json"
              body := "\x7b\"error\":\"file not found\"\x7d" }
      ∧ (part000.onRequestGet idParam upstream).result
        = Except.ok
            { status := 404
              contentType := "application/json"
              body := "\x7b\"error\":\"File not found\"\x7d" } := by
  constructor
  · simp only [koubei.onRequestGet]
    rw [show (some id).getD "" = id from rfl, if_neg hid, if_pos (hfail (fileUrlOf id))]
    rfl
  · simp only [part000.onRequestGet]
    rw [if_pos (hfail (fileUrlOf (if idParam.getD "" = "" then "197" else idParam.getD "")))]
    rfl

/-- Witness for C2 at a concrete id and an upstream that always answers 503. -/
theorem C2_upstream_failure_404_witness :
    (koubei.onRequestGet (some "x") (fun _ => ⟨503, ""⟩)).result
        = Except.ok
            { status := 404
              contentType := "application/json"
              body := "\x7b\"error\":\"file not found\"\x7d" }
      ∧ (part000.onRequestGet (some "y") (fun _ => ⟨503, ""⟩)).result
        = Except.ok
            { status := 404
              contentType := "application/json"
              body := "\x7b\"error\":\"File not found\"\x7d" } :=
  C2_upstream_failure_404 "x" (some "y") (fun _ => ⟨503, ""⟩) (by decide) (fun _ => rfl)

/-- C3 (counterexample): a 2xx upstream response can carry the valid JSON
body `1e999`, a number literal that overflows an IEEE-754 double.
`JSON.parse` turns it into `Infinity`, and `JSON.stringify(Infinity)`
prints `null`: the strict handler returns 200 with body `"null"`, which is
not structurally equal as JSON to the upstream body, refuting the claim. -/
theorem C3_counterexample :
    (koubei.onRequestGet (some "1") (fun _ => ⟨200, "1e999"⟩)).result
        = Except.ok { status := 200, contentType := "application/json", body := "null" }
      ∧ jsonParse "1e999" = some (Json.inf false)
      ∧ jsonParse "null" ≠ jsonParse "1e999" := by
  refine ⟨rfl, rfl, fun h => ?_⟩
  rw [show jsonParse "null" = some Json.null from rfl] at h
  rw [show jsonParse "1e999" = some (Json.inf false) from rfl] at h
  exact Json.noConfusion (Option.some.inj h)

/-- C3 (amended): whenever the upstream fetch returns 2xx with a valid JSON
body whose parsed value contains no number that overflows a double (no
`Infinity` appears), both handlers parse the body and re-serialize it
(2-space indented in the lenient variant) and return it with status 200 and
Content-Type `application/json`; the returned body is structurally equal as
JSON to the upstream body. -/
theorem C3_amended_success_reserializes (id : String) (upstream : String → UpstreamResp)
    (j : Json)
    (hid : id ≠ "")
    (hok : fetchOk (upstream (fileUrlOf id)) = true)
    (hjson : jsonParse (upstream (fileUrlOf id)).body = some j)
    (hfin : noInf j = true) :
    (koubei.onRequestGet (some id) upstream).result
        = Except.ok
            { status := 200
              contentType := "application/json"
              body := jsonStringify j }
      ∧ (part000.onRequestGet (some id) upstream).result
        = Except.ok
            { status := 200
              contentType := "application/json"
              body := jsonStringify2 j }
      ∧ jsonParse (jsonStringify j) = jsonParse (upstream (fileUrlOf id)).body
      ∧ jsonParse (jsonStringify2 j) = jsonParse (upstream (fileUrlOf id)).body := by
  have hwf : finiteWf j = true :=
    finiteWf_of j (jsonParse_wf (upstream (fileUrlOf id)).body j hjson) hfin
  refine ⟨?_, ?_, ?_, ?_⟩
  · rw [koubei_ok_result id upstream j hid hok hjson]
  · rw [part000_ok_result id upstream j hid hok hjson]
  · rw [jsonParse_jsonStringify j hwf, hjson]
  · rw [jsonParse_jsonStringify2 j hwf, hjson]

/-- Witness for the amended C3: upstream returns `{"make":"X","score":4.5}`
with 200. -/
theorem C3_amended_success_reserializes_witness :
    (koubei.onRequestGet (some "197")
        (fun _ => ⟨200, "\x7b\"make\":\"X\",\"score\":4.5\x7d"⟩)).result
        = Except.ok
            { status := 200
              contentType := "application/json"
              body := jsonStringify (Json.obj [("make", Json.str "X"), ("score", Json.num 45 1)]) }
      ∧ (part000.onRequestGet (some "197")
          (fun _ => ⟨200, "\x7b\"make\":\"X\",\"score\":4.5\x7d"⟩)).result
        = Except.ok
            { status := 200
              contentType := "application/json"
              body := jsonStringify2 (Json.obj [("make", Json.str "X"), ("score", Json.num 45 1)]) }
      ∧ jsonParse (jsonStringify (Json.obj [("make", Json.str "X"), ("score", Json.num 45 1)]))
          = jsonParse ((fun (_ : String) =>
              (⟨200, "\x7b\"make\":\"X\",\"score\":4.5\x7d"⟩ : UpstreamResp)) (fileUrlOf "197")).body
      ∧ jsonParse (jsonStringify2 (Json.obj [("make", Json.str "X"), ("score", Json.num 45 1)]))
          = jsonParse ((fun (_ : String) =>
              (⟨200, "\x7b\"make\":\"X\",\"score\":4.5\x7d"⟩ : UpstreamResp)) (fileUrlOf "197")).body :=
  C3_amended_success_reserializes "197"
    (fun _ => ⟨200, "\x7b\"make\":\"X\",\"score\":4.5\x7d"⟩)
    (Json.obj [("make", Json.str "X"), ("score", Json.num 45 1)])
    (by decide) rfl rfl rfl

/-- C4: In the lenient variant, a request with no `id` parameter resolves the
upstream URL with the default id `197`:
`https://china-auto-dashboard.pages.dev/api/koubei_summary_197.json`. -/
theorem C4_lenient_default_197 (upstream : String → UpstreamResp) :
    (part000.onRequestGet none upstream).fetched
      = ["https://china-auto-dashboard.pages.dev/api/koubei_summary_197.json"] := by
  rw [part000_fetched]
  rfl

/-- C5: In both variants, the resolved upstream URL is the fixed template with
the `id` value substituted verbatim (no encoding or sanitization). -/
theorem C5_url_verbatim (id : String) (upstream : String → UpstreamResp) (hid : id ≠ "") :
    (koubei.onRequestGet (some id) upstream).fetched
        = ["https://china-auto-dashboard.pages.dev/api/koubei_summary_" ++ id ++ ".json"]
      ∧ (part000.onRequestGet (some id) upstream).fetched
        = ["https://china-auto-dashboard.pages.dev/api/koubei_summary_" ++ id ++ ".json"] := by
  constructor
  · rw [koubei_fetched, show (some id).getD "" = id from rfl, if_neg hid]
    rfl
  · rw [part000_fetched, show (some id).getD "" = id from rfl, if_neg hid]
    rfl

/-- Witness for C5 at an id full of URL metacharacters, which is substituted
verbatim. -/
theorem C5_url_verbatim_witness :
    (koubei.onRequestGet (some "a b/../x?y=1") (fun _ => ⟨200, "null"⟩)).fetched
        = ["https://china-auto-dashboard.pages.dev/api/koubei_summary_" ++ "a b/../x?y=1"
            ++ ".json"]
      ∧ (part000.onRequestGet (some "a b/../x?y=1") (fun _ => ⟨200, "null"⟩)).fetched
        = ["https://china-auto-dashboard.pages.dev/api/koubei_summary_" ++ "a b/../x?y=1"
            ++ ".json"] :=
  C5_url_verbatim "a b/../x?y=1" (fun _ => ⟨200, "null"⟩) (by decide)

/-- C6 (counterexample): the round trip fails at the valid JSON upstream
body `1e999`: the lenient handler's output body is `"null"`, which decodes
to JSON `null` and re-encodes to `"null"`, while the upstream body decodes
to `Infinity` — decode of the output is not structurally equal to decode of
the upstream body, refuting the claim. -/
theorem C6_counterexample :
    (part000.onRequestGet (some "1") (fun _ => ⟨200, "1e999"⟩)).result
        = Except.ok { status := 200, contentType := "application/json", body := "null" }
      ∧ jsonParse "null" = some Json.null
      ∧ jsonStringify Json.null = "null"
      ∧ jsonParse "1e999" = some (Json.inf false)
      ∧ Json.null ≠ Json.inf false :=
  ⟨rfl, rfl, rfl, rfl, fun h => Json.noConfusion h⟩

/-- C6 (amended): for every valid JSON upstream body returned with 2xx whose
parsed value contains no number that overflows a double, decoding the
handler's output body gives back exactly the upstream JSON value, and
re-encoding it is again structurally equal to the upstream body. -/
theorem C6_amended_round_trip (id : String) (upstream : String → UpstreamResp) (j : Json)
    (hid : id ≠ "")
    (hok : fetchOk (upstream (fileUrlOf id)) = true)
    (hjson : jsonParse (upstream (fileUrlOf id)).body = some j)
    (hfin : noInf j = true) :
    ∃ os ol : HttpResponse,
      (koubei.onRequestGet (some id) upstream).result = Except.ok os
      ∧ (part000.onRequestGet (some id) upstream).result = Except.ok ol
      ∧ jsonParse os.body = some j
      ∧ jsonParse ol.body = some j
      ∧ jsonParse (jsonStringify j) = jsonParse (upstream (fileUrlOf id)).body
      ∧ jsonParse (jsonStringify2 j) = jsonParse (upstream (fileUrlOf id)).body := by
  have hwf : finiteWf j = true :=
    finiteWf_of j (jsonParse_wf (upstream (fileUrlOf id)).body j hjson) hfin
  refine ⟨⟨200, "application/json", jsonStringify j⟩,
    ⟨200, "application/json", jsonStringify2 j⟩, ?_, ?_, ?_, ?_, ?_, ?_⟩
  · rw [koubei_ok_result id upstream j hid hok hjson]
  · rw [part000_ok_result id upstream j hid hok hjson]
  · exact jsonParse_jsonStringify j hwf
  · exact jsonParse_jsonStringify2 j hwf
  · rw [jsonParse_jsonStringify j hwf, hjson]
  · rw [jsonParse_jsonStringify2 j hwf, hjson]

/-- Witness for the amended C6 with upstream body `{"id":197,"summary":"ok"}`. -/
theorem C6_amended_round_trip_witness :
    ∃ os ol : HttpResponse,
      (koubei.onRequestGet (some "197")
          (fun _ => ⟨200, "\x7b\"id\":197,\"summary\":\"ok\"\x7d"⟩)).result = Except.ok os
      ∧ (part000.onRequestGet (some "197")
          (fun _ => ⟨200, "\x7b\"id\":197,\"summary\":\"ok\"\x7d"⟩)).result = Except.ok ol
      ∧ jsonParse os.body = some (Json.obj [("id", Json.num 197 0), ("summary", Json.str "ok")])
      ∧ jsonParse ol.body = some (Json.obj [("id", Json.num 197 0), ("summary", Json.str "ok")])
      ∧ jsonParse (jsonStringify (Json.obj [("id", Json.num 197 0), ("summary", Json.str "ok")]))
          = jsonParse ((fun (_ : String) =>
              (⟨200, "\x7b\"id\":197,\"summary\":\"ok\"\x7d"⟩ : UpstreamResp))
              (fileUrlOf "197")).body
      ∧ jsonParse (jsonStringify2 (Json.obj [("id", Json.num 197 0), ("summary", Json.str "ok")]))
          = jsonParse ((fun (_ : String) =>
              (⟨200, "\x7b\"id\":197,\"summary\":\"ok\"\x7d"⟩ : UpstreamResp))
              (fileUrlOf "197")).body :=
  C6_amended_round_trip "197" (fun _ => ⟨200, "\x7b\"id\":197,\"summary\":\"ok\"\x7d"⟩)
    (Json.obj [("id", Json.num 197 0), ("summary", Json.str "ok")]) (by decide) rfl rfl rfl

/-- C7 counterexample: with a 2xx upstream response whose body is not valid
JSON, the strict handler's promise settles with an uncaught exception (the
`res.json()` parse failure), not a structured JSON response — refuting the
claim that all errors are caught and mapped to a JSON envelope. -/
theorem C7_counterexample :
    (koubei.onRequestGet (some "1") (fun _ => ⟨200, "not json"⟩)).result
      = Except.error JsError.jsonParseError := rfl

/-- C7 (amended): on every path except a 2xx upstream body that is not valid
JSON, errors are mapped to a structured JSON response; whenever every 2xx
upstream body parses as JSON, both handlers always return a structured
response with Content-Type `application/json` and never an uncaught
exception. -/
theorem C7_amended_no_uncaught (idParam : Option String) (upstream : String → UpstreamResp)
    (hvalid : ∀ url, fetchOk (upstream url) = true
      → (jsonParse (upstream url).body).isSome = true) :
    (∃ r, (koubei.onRequestGet idParam upstream).result = Except.ok r
        ∧ r.contentType = "application/json")
    ∧ (∃ r, (part000.onRequestGet idParam upstream).result = Except.ok r
        ∧ r.contentType = "application/json") := by
  constructor
  · simp only [koubei.onRequestGet]
    by_cases h : idParam.getD "" = ""
    · rw [if_pos h]
      exact ⟨_, rfl, rfl⟩
    · rw [if_neg h]
      by_cases hok : fetchOk (upstream (fileUrlOf (idParam.getD ""))) = false
      · rw [if_pos hok]
        exact ⟨_, rfl, rfl⟩
      · rw [if_neg hok]
        have hsome := hvalid (fileUrlOf (idParam.getD ""))
          (by revert hok; cases fetchOk (upstream (fileUrlOf (idParam.getD ""))) <;> simp)
        obtain ⟨j, hj⟩ := Option.isSome_iff_exists.mp hsome
        rw [hj]
        exact ⟨_, rfl, rfl⟩
  · simp only [part000.onRequestGet]
    by_cases hok : fetchOk
        (upstream (fileUrlOf (if idParam.getD "" = "" then "197" else idParam.getD ""))) = false
    · rw [if_pos hok]
      exact ⟨_, rfl, rfl⟩
    · rw [if_neg hok]
      have hsome := hvalid
        (fileUrlOf (if idParam.getD "" = "" then "197" else idParam.getD ""))
        (by revert hok
            cases fetchOk
              (upstream (fileUrlOf (if idParam.getD "" = "" then "197" else idParam.getD "")))
              <;> simp)
      obtain ⟨j, hj⟩ := Option.isSome_iff_exists.mp hsome
      rw [hj]
      exact ⟨_, rfl, rfl⟩

/-- Witness for the amended C7: an upstream that always returns valid JSON. -/
theorem C7_amended_no_uncaught_witness :
    (∃ r, (koubei.onRequestGet (some "1") (fun _ => ⟨200, "\x7b\x7d"⟩)).result = Except.ok r
        ∧ r.contentType = "application/json")
    ∧ (∃ r, (part000.onRequestGet (some "1") (fun _ => ⟨200, "\x7b\x7d"⟩)).result = Except.ok r
        ∧ r.contentType = "application/json") :=
  C7_amended_no_uncaught (some "1") (fun _ => ⟨200, "\x7b\x7d"⟩) (fun _ _ => rfl)

/-- C8 counterexample: the strict variant's missing-id path performs zero
outbound fetches, refuting "exactly one outbound network call on every
execution path in both variants". -/
theorem C8_counterexample :
    (koubei.onRequestGet none (fun _ => ⟨200, "null"⟩)).fetched.length ≠ 1 := by
  decide

/-- C8 (amended): each inbound request performs at most one outbound fetch:
the lenient variant performs exactly one on every path, and the strict
variant performs exactly one except on its missing-or-empty-id path, where it
performs none. -/
theorem C8_amended_fetch_count (idParam : Option String) (upstream : String → UpstreamResp) :
    (part000.onRequestGet idParam upstream).fetched.length = 1
    ∧ (koubei.onRequestGet idParam upstream).fetched.length
        = (if idParam.getD "" = "" then 0 else 1) := by
  constructor
  · rw [part000_fetched]
    rfl
  · rw [koubei_fetched]
    by_cases h : idParam.getD "" = ""
    · rw [if_pos h, if_pos h]
      rfl
    · rw [if_neg h, if_neg h]
      rfl

/-- C9: In the lenient variant an empty `id` (`?id=`) is indistinguishable
from an absent one: the falsy default substitutes `"197"`, so the fetched URL
is the default-id URL and never one built from an empty id. -/
theorem C9_lenient_empty_as_absent (upstream : String → UpstreamResp) :
    part000.onRequestGet (some "") upstream = part000.onRequestGet none upstream
    ∧ (part000.onRequestGet (some "") upstream).fetched = [fileUrlOf "197"] := by
  constructor
  · rfl
  · rw [part000_fetched]
    rfl

/-- C10: both handlers are deterministic functions of the `id` parameter and
the upstream response at the single resolved URL: two upstreams agreeing
there produce identical responses (status, headers, body and fetch trace). -/
theorem C10_deterministic (idParam : Option String) (up1 up2 : String → UpstreamResp)
    (hstrict : up1 (fileUrlOf (idParam.getD "")) = up2 (fileUrlOf (idParam.getD "")))
    (hlenient : up1 (fileUrlOf (if idParam.getD "" = "" then "197" else idParam.getD ""))
        = up2 (fileUrlOf (if idParam.getD "" = "" then "197" else idParam.getD ""))) :
    koubei.onRequestGet idParam up1 = koubei.onRequestGet idParam up2
    ∧ part000.onRequestGet idParam up1 = part000.onRequestGet idParam up2 := by
  constructor
  · simp only [koubei.onRequestGet]
    by_cases h : idParam.getD "" = ""
    · rw [if_pos h, if_pos h]
    · rw [if_neg h, if_neg h, hstrict]
  · simp only [part000.onRequestGet]
    rw [hlenient]

/-- Witness for C10: two distinct upstreams agreeing on the one fetched URL. -/
theorem C10_deterministic_witness :
    koubei.onRequestGet (some "5")
        (fun url => if url = fileUrlOf "5" then ⟨200, "1"⟩ else ⟨500, "no"⟩)
      = koubei.onRequestGet (some "5") (fun _ => ⟨200, "1"⟩)
    ∧ part000.onRequestGet (some "5")
        (fun url => if url = fileUrlOf "5" then ⟨200, "1"⟩ else ⟨500, "no"⟩)
      = part000.onRequestGet (some "5") (fun _ => ⟨200, "1"⟩) :=
  C10_deterministic (some "5")
    (fun url => if url = fileUrlOf "5" then ⟨200, "1"⟩ else ⟨500, "no"⟩)
    (fun _ => ⟨200, "1"⟩) (by rfl) (by rfl)

end ChinaAutoDashboard
